import Mathlib

/-!
# Verification of the legal-document RAG chunking and retrieval pipeline

Shallow embedding of the repository's core algorithms:

* `json_to_rag_chunks.py` — `DocumentProcessor.process_document` and
  `DocumentProcessor._split_text` (text selection, chunk splitting, chunk assembly);
* `categorized_retrieval_pipeline.py` / `retrieval_pipeline_without_reranker.py` —
  `rerank` and `group_results` (candidate reranking and sub-chunk grouping).

Text is modelled as `List Char`; Python floats (similarity / rerank scores) are
modelled as `ℚ`; JSON scalar values as the inductive `JVal`; fallible or possibly
non-terminating loops return `Option` with explicit fuel.
-/

set_option maxRecDepth 200000

namespace RagModels

/-- Whitespace characters stripped by Python's `str.strip()` (ASCII subset). -/
def isSpaceChar (c : Char) : Bool :=
  c = ' ' || c = '\n' || c = '\t' || c = '\r'

/-- Drop leading whitespace (left half of Python `str.strip()`). -/
def trimLeft (l : List Char) : List Char := l.dropWhile isSpaceChar

/-- Drop trailing whitespace (right half of Python `str.strip()`). -/
def trimRight (l : List Char) : List Char := (l.reverse.dropWhile isSpaceChar).reverse

/-- Python `str.strip()`. -/
def pyStrip (l : List Char) : List Char := trimRight (trimLeft l)

/-- Python slice `t[s:e]` for `0 ≤ s ≤ e`. -/
def slice (t : List Char) (s e : Nat) : List Char := (t.drop s).take (e - s)

/-- A char that never occurs in real text (used as an out-of-range default). -/
def nullCh : Char := Char.ofNat 0

/-- `findCharDesc t c hi lo`: largest index `i` with `lo < i ≤ hi` and `t[i] = c`,
scanning downward — models `for i in range(end, stop, -1): if text[i] == c: ...`
in `DocumentProcessor._split_text` (stop index excluded, as in Python `range`).
Structural recursion on `hi` (for `hi = 0` the scan range `lo < i ≤ 0` is empty). -/
def findCharDesc (t : List Char) (c : Char) : Nat → Nat → Option Nat
  | 0, _ => none
  | hi + 1, lo =>
    if hi + 1 ≤ lo then none
    else if t.getD (hi + 1) nullCh = c then some (hi + 1)
    else findCharDesc t c hi lo

/-- The boundary-adjustment step of `_split_text`: look back (at most 100 chars)
for a newline, else (at most 50 chars) for a space; cut after it, else keep `e`. -/
def adjustEnd (t : List Char) (s e : Nat) : Nat :=
  match findCharDesc t '\n' e (max s (e - 100)) with
  | some i => i + 1
  | none =>
    match findCharDesc t ' ' e (max s (e - 50)) with
    | some i => i + 1
    | none => e

/-- The cut point of one loop iteration: the raw window end
`min(start + max_chars, text_len)`, boundary-adjusted when it falls strictly
inside the text. -/
def loopEnd (maxC : Nat) (t : List Char) (s : Nat) : Nat :=
  if min (s + maxC) t.length < t.length then adjustEnd t s (min (s + maxC) t.length)
  else min (s + maxC) t.length

/-- The window produced by one loop iteration: `text[start:end].strip()`. -/
def loopChunk (maxC : Nat) (t : List Char) (s : Nat) : List Char :=
  pyStrip (slice t s (loopEnd maxC t s))

/-- The next loop start: `start = end - overlap; if start < 0: start = 0;
if start >= end: start = end` (natural subtraction already clamps at 0). -/
def nextStart (ov e : Nat) : Nat :=
  if e ≤ e - ov then e else e - ov

/-- One-iteration-per-fuel-unit embedding of the `while start < text_len` loop of
`DocumentProcessor._split_text`.  Returns `none` when fuel runs out (the Python
loop would still be running). -/
def splitLoop (maxC ov : Nat) (t : List Char) :
    Nat → Nat → List (List Char) → Option (List (List Char))
  | 0, _, _ => none
  | fuel + 1, start, acc =>
    if start < t.length then
      if t.length ≤ loopEnd maxC t start then
        some (if loopChunk maxC t start = [] then acc else acc ++ [loopChunk maxC t start])
      else
        splitLoop maxC ov t fuel (nextStart ov (loopEnd maxC t start))
          (if loopChunk maxC t start = [] then acc else acc ++ [loopChunk maxC t start])
    else some acc

/-- `DocumentProcessor._split_text`: texts within the budget are returned whole
(untrimmed); longer texts go through the overlapping-window loop. -/
def split_text (maxC ov fuel : Nat) (t : List Char) : Option (List (List Char)) :=
  if t.length ≤ maxC then some [t] else splitLoop maxC ov t fuel 0 []

/-! ## JSON scalar values and Python `str()` -/

/-- JSON scalar values as they reach the Python code (via `dict.get`). -/
inductive JVal where
  | jnull
  | jstr (s : List Char)
  | jint (n : Int)
  | jbool (b : Bool)
deriving DecidableEq

/-- Decimal digit to character. -/
def digitChar (d : Nat) : Char := Char.ofNat (48 + d)

/-- Character to decimal digit value. -/
def digitVal (c : Char) : Nat := c.toNat - 48

/-- Fuel-driven digit expansion (structural, so that it evaluates in the
kernel); with fuel `n + 1` it renders `n` fully. -/
def natToCharsF : Nat → Nat → List Char
  | 0, _ => []
  | fuel + 1, n =>
    if n < 10 then [digitChar n]
    else natToCharsF fuel (n / 10) ++ [digitChar (n % 10)]

/-- Decimal rendering of a natural number (Python `str(n)` for `n ≥ 0`). -/
def natToChars (n : Nat) : List Char := natToCharsF (n + 1) n

/-- Python `str()` of an integer. -/
def intToChars : Int → List Char
  | .ofNat n => natToChars n
  | .negSucc m => '-' :: natToChars (m + 1)

/-- Python `str()` of a JSON scalar. -/
def pyStr : JVal → List Char
  | .jnull => "None".toList
  | .jstr s => s
  | .jint n => intToChars n
  | .jbool true => "True".toList
  | .jbool false => "False".toList

/-- Python truthiness of an optional string (`None` and `""` are falsy). -/
def optStrTruthy : Option (List Char) → Bool
  | none => false
  | some s => s ≠ []

/-! ## Document model and `DocumentProcessor.process_document` -/

/-- One article record, with exactly the JSON shapes the code distinguishes:
`article_content` may be absent (`none`), JSON null (`some none`) or a string;
`original_content` absent and null are indistinguishable to the code
(`art.get` returns `None` for both), hence a single `Option`. -/
structure Art where
  article_number : Option JVal
  article_title : List Char
  is_canceled : Option JVal
  article_content : Option (Option (List Char))
  original_content : Option (List Char)
deriving DecidableEq

/-- One law document: identifier, category labels, articles. -/
structure Doc where
  element_id : Option JVal
  categories : List (List Char)
  articles : List Art
deriving DecidableEq

/-- `"ملغاة"` — the canceled status label. -/
def canceledLabel : List Char := "ملغاة".toList

/-- `"سارية"` — the active status label. -/
def activeLabel : List Char := "سارية".toList

/-- `str(art.get("is_canceled", "0"))`. -/
def isCanceledStr (a : Art) : List Char := pyStr (a.is_canceled.getD (JVal.jstr ['0']))

/-- The status label logic of `process_document`. -/
def statusLabel (a : Art) : List Char :=
  if isCanceledStr a = ['1'] then canceledLabel else activeLabel

/-- `raw_content = art.get("article_content", "")`: absent becomes `""`,
JSON null becomes Python `None`. -/
def raw_content (a : Art) : Option (List Char) :=
  match a.article_content with
  | none => some []
  | some v => v

/-- The content-selection logic of `process_document`: canceled articles with a
truthy `original_content` use it, otherwise the current `article_content`;
`None` becomes `""`; the result is stripped. -/
def effective_text (a : Art) : List Char :=
  pyStrip ((if isCanceledStr a = ['1'] ∧ optStrTruthy a.original_content then
    a.original_content else raw_content a).getD [])

/-- An emitted chunk record (`chunk_obj` in `process_document`), restricted to
the identity, grouping and payload fields the verified claims are about. -/
structure Chunk where
  id : List Char
  article_group_id : List Char
  chunk_index : Nat
  total_chunks_in_article : Nat
  text_content : List Char
  categories : List (List Char)
  article_title : List Char
  status : List Char
deriving DecidableEq

/-- `str(doc.get("element_id", "unknown"))`. -/
def law_id_str (d : Doc) : List Char := pyStr (d.element_id.getD (JVal.jstr "unknown".toList))

/-- Build one chunk for window `w` at window index `i`.  `h` models the
`hashlib.md5(...).hexdigest()` function (an external pure hash); the hash input
is the f-string `f"{law_id}_{article_title}_{i}"`. -/
def mk_chunk (h : List Char → List Char) (lawIdS : List Char) (cats : List (List Char))
    (a : Art) (total : Nat) (i : Nat) (w : List Char) : Chunk :=
  { id := h (lawIdS ++ '_' :: a.article_title ++ '_' :: natToChars i)
    article_group_id := lawIdS ++ '_' :: pyStr (a.article_number.getD (JVal.jstr []))
    chunk_index := i
    total_chunks_in_article := total
    text_content := w
    categories := cats
    article_title := a.article_title
    status := statusLabel a }

/-- `for i, sub_chunk_text in enumerate(text_chunks): ...` -/
def mk_chunks (h : List Char → List Char) (lawIdS : List Char) (cats : List (List Char))
    (a : Art) (total : Nat) : Nat → List (List Char) → List Chunk
  | _, [] => []
  | i, w :: ws => mk_chunk h lawIdS cats a total i w :: mk_chunks h lawIdS cats a total (i + 1) ws

/-- Process one article of `process_document`: skip articles whose effective
text is empty, otherwise split and assemble one chunk per window. -/
def process_article (h : List Char → List Char) (maxC ov fuel : Nat)
    (lawIdS : List Char) (cats : List (List Char)) (a : Art) : Option (List Chunk) :=
  let eff := effective_text a
  if eff = [] then some []
  else (split_text maxC ov fuel eff).map (fun ws => mk_chunks h lawIdS cats a ws.length 0 ws)

/-- Concatenate per-article chunk lists, propagating fuel exhaustion. -/
def process_articles (f : Art → Option (List Chunk)) : List Art → Option (List Chunk)
  | [] => some []
  | a :: as => do
    let c ← f a
    let cs ← process_articles f as
    pure (c ++ cs)

/-- `DocumentProcessor.process_document` over one document. -/
def process_document (h : List Char → List Char) (maxC ov fuel : Nat) (d : Doc) :
    Option (List Chunk) :=
  process_articles (process_article h maxC ov fuel (law_id_str d) d.categories) d.articles

/-! ## Retrieval side: `rerank` and `group_results` -/

/-- A per-query candidate (`CandidateResult`): id, prevailing score
(vector-similarity score in the no-reranker pipeline, rerank score in the
reranked pipelines), and the payload's `article_group_id` (`none` if absent). -/
structure Cand where
  id : List Char
  score : ℚ
  article_group_id : Option (List Char)
deriving DecidableEq

/-- `group_id = res['payload'].get('article_group_id'); if not group_id:
group_id = res['id']` — the group key, with Python-falsy fallback to the id. -/
def eff_group (c : Cand) : List Char :=
  match c.article_group_id with
  | none => c.id
  | some g => if g = [] then c.id else g

/-- The per-group dictionary value built by `group_results`. -/
structure GroupAcc where
  best_score : ℚ
  primary : Cand
  all_chunks : List Cand
deriving DecidableEq

/-- First candidate of a group. -/
def init_group (c : Cand) : GroupAcc := ⟨c.score, c, [c]⟩

/-- Fold one more candidate into an existing group: append to `all_chunks`,
promote the candidate on a strictly greater score. -/
def upd_group (d : GroupAcc) (c : Cand) : GroupAcc :=
  { best_score := if d.best_score < c.score then c.score else d.best_score
    primary := if d.best_score < c.score then c else d.primary
    all_chunks := d.all_chunks ++ [c] }

/-- Insert/update a key in the insertion-ordered association list modelling the
Python dict `grouped`. -/
def upsert_group : List (List Char × GroupAcc) → List Char → Cand → List (List Char × GroupAcc)
  | [], k, c => [(k, init_group c)]
  | (k', d) :: rest, k, c =>
    if k' = k then (k', upd_group d c) :: rest
    else (k', d) :: upsert_group rest k c

/-- The grouping loop of `group_results`. -/
def group_fold (rs : List Cand) : List (List Char × GroupAcc) :=
  rs.foldl (fun acc c => upsert_group acc (eff_group c) c) []

/-- One element of the final output of `group_results`: best score, the
maximum-scoring (primary) candidate — whose payload the Python code exposes —
and the number of collapsed sibling chunks. -/
structure GroupedResult where
  score : ℚ
  primary : Cand
  group_count : Nat
deriving DecidableEq

/-- Flatten one dict entry to an output record. -/
def to_grouped (kd : List Char × GroupAcc) : GroupedResult :=
  ⟨kd.2.best_score, kd.2.primary, kd.2.all_chunks.length⟩

/-- Stable descending insertion: `x` goes before the first strictly smaller key. -/
def insert_desc {α : Type} (key : α → ℚ) (x : α) : List α → List α
  | [] => [x]
  | y :: ys => if key y < key x then x :: y :: ys else y :: insert_desc key x ys

/-- Stable descending sort by `key` — the behaviour of Python's stable
`list.sort(key=..., reverse=True)` / `sorted(..., reverse=True)`. -/
def sort_desc {α : Type} (key : α → ℚ) (l : List α) : List α :=
  l.foldl (fun acc x => insert_desc key x acc) []

/-- `group_results` of both retrieval pipelines (identical code up to which
score field of the candidate is the prevailing one). -/
def group_results (rs : List Cand) : List GroupedResult :=
  sort_desc (·.score) ((group_fold rs).map to_grouped)

/-- Attach the externally computed rerank scores: `res['rerank_score'] = ...`.
`f` models the cross-encoder's score of the (query, rich-text) pair built from
the candidate's payload. -/
def attach_scores (f : Cand → ℚ) (l : List Cand) : List Cand :=
  l.map (fun c => { c with score := f c })

/-- `rerank`: empty input short-circuits; otherwise attach scores, sort stably
descending by rerank score, truncate to `topK`. -/
def rerank (f : Cand → ℚ) (l : List Cand) (topK : Nat) : List Cand :=
  if l = [] then [] else (sort_desc (·.score) (attach_scores f l)).take topK

/-- First-seen deduplication step. -/
def fs_step (ks : List (List Char)) (k : List Char) : List (List Char) :=
  if k ∈ ks then ks else ks ++ [k]

/-- The distinct keys of a list, in order of first occurrence — the iteration
order of the Python dict `grouped`. -/
def first_seen_keys (l : List (List Char)) : List (List Char) := l.foldl fs_step []

/-- The partition of a candidate list that shares the effective group key `k`. -/
def partOf (k : List Char) (rs : List Cand) : List Cand :=
  rs.filter (fun c => decide (eff_group c = k))

/-- Total number of collected chunks over all groups. -/
def sum_chunks (acc : List (List Char × GroupAcc)) : Nat :=
  (acc.map (fun kd => kd.2.all_chunks.length)).sum

/-- A group accumulator is correct for its partition: it collects exactly the
partition, its best score is the partition's maximum, and its primary chunk is
the first partition element attaining that maximum. -/
def goodData (part : List Cand) (d : GroupAcc) : Prop :=
  d.all_chunks = part ∧
  d.primary.score = d.best_score ∧
  (∀ c ∈ part, c.score ≤ d.best_score) ∧
  ∃ l1 l2, part = l1 ++ d.primary :: l2 ∧ ∀ c ∈ l1, c.score < d.best_score

/-- Invariant tying the dict `grouped` to the prefix of candidates processed. -/
def InvG (pre : List Cand) (acc : List (List Char × GroupAcc)) : Prop :=
  (acc.map Prod.fst).Nodup ∧
  acc.map Prod.fst = first_seen_keys (pre.map eff_group) ∧
  ∀ kd ∈ acc, goodData (partOf kd.1 pre) kd.2

/-- 150 letters with no newline and no space: longer than `max_chars = 100`. -/
def t150 : List Char := List.replicate 150 'a'

/-- Parse a digit string back to a number (little helper for injectivity). -/
def charsVal (l : List Char) : Nat := l.foldl (fun a c => a * 10 + digitVal c) 0

/-- The ids `mk_chunks` assigns, computed from the hash inputs only. -/
def mk_ids (h : List Char → List Char) (lawIdS title : List Char) :
    Nat → List (List Char) → List (List Char)
  | _, [] => []
  | i, _w :: ws =>
    h (lawIdS ++ '_' :: title ++ '_' :: natToChars i) :: mk_ids h lawIdS title (i + 1) ws

/-- The id sequence of one article depends only on the law id string, the
article title and the article's effective text. -/
def article_ids (h : List Char → List Char) (maxC ov fuel : Nat)
    (lawIdS title eff : List Char) : Option (List (List Char)) :=
  if eff = [] then some []
  else (split_text maxC ov fuel eff).map (fun ws => mk_ids h lawIdS title 0 ws)

/-- Id sequences over a list of (title, effective text) pairs. -/
def articles_ids (h : List Char → List Char) (maxC ov fuel : Nat) (lawIdS : List Char) :
    List (List Char × List Char) → Option (List (List Char))
  | [] => some []
  | te :: rest => do
    let x ← article_ids h maxC ov fuel lawIdS te.1 te.2
    let xs ← articles_ids h maxC ov fuel lawIdS rest
    pure (x ++ xs)

/-! ## Spec-side selector (refinement target for claim C3) -/

/-- The boolean-like cancellation test named by the spec: the flag is the
string `"1"` or the number `1`. -/
def boolLikeCanceled (a : Art) : Prop :=
  a.is_canceled = some (JVal.jstr ['1']) ∨ a.is_canceled = some (JVal.jint 1)

instance (a : Art) : Decidable (boolLikeCanceled a) := by
  unfold boolLikeCanceled
  infer_instance

/-- The spec's original-content view: missing or null is the empty string. -/
def spec_original (a : Art) : List Char := a.original_content.getD []

/-- The spec's current-content view: missing or null is the empty string. -/
def spec_current (a : Art) : List Char :=
  match a.article_content with
  | none => []
  | some none => []
  | some (some s) => s

/-- The `select` contract of spec §4.1, written from the spec's words: status
label from the boolean-like flag; effective text is original-content when
canceled and original-content is present and non-empty, else current content,
trimmed, with missing/null fields as empty string. -/
def select_spec (a : Art) : List Char × List Char :=
  (if boolLikeCanceled a then canceledLabel else activeLabel,
   pyStrip (if boolLikeCanceled a ∧ spec_original a ≠ [] then spec_original a
     else spec_current a))

/-! ## Concrete inputs used by the claim theorems -/

/-- Splitter input refuting the ceiling bound: 52 chars with a newline every
4 positions from index 8 to 48. -/
def t52 : List Char := (List.range 52).map (fun p => if 8 ≤ p ∧ p % 4 = 0 then '\n' else 'a')

/-- The grouping example of the spec's testable properties:
`[{group:"A",score:0.5},{group:"A",score:0.9},{group:"B",score:0.7}]`. -/
def exCands : List Cand :=
  [⟨"c1".toList, Rat.divInt 1 2, some "A".toList⟩,
   ⟨"c2".toList, Rat.divInt 9 10, some "A".toList⟩,
   ⟨"c3".toList, Rat.divInt 7 10, some "B".toList⟩]

/-- The expected grouping output: `A` first (best 0.9, 2 chunks), then `B`. -/
def exGrouped : List GroupedResult :=
  [⟨Rat.divInt 9 10, ⟨"c2".toList, Rat.divInt 9 10, some "A".toList⟩, 2⟩,
   ⟨Rat.divInt 7 10, ⟨"c3".toList, Rat.divInt 7 10, some "B".toList⟩, 1⟩]

/-- An Article whose effective content is 2500 characters. -/
def art2500 : Art :=
  { article_number := some (JVal.jint 5)
    article_title := "T5".toList
    is_canceled := none
    article_content := some (some (List.replicate 2500 'a'))
    original_content := none }

/-- One Law with one Article whose effective content is 2500 characters. -/
def doc2500 : Doc :=
  { element_id := some (JVal.jstr "L1".toList)
    categories := ["قانون".toList]
    articles := [art2500] }

/-- Ingestion of `doc2500` with `max_chars = 1000`, `overlap = 200`. -/
def ingest2500 : Option (List Chunk) := process_document (fun s => s) 1000 200 50 doc2500

/-- The single group key of `doc2500`'s chunks. -/
def key2500 : List Char := "L1_5".toList

/-- A document whose only article has no `article_number` but a title `"T"`
(probes the claimed title fallback of the group key). -/
def doc7 : Doc :=
  { element_id := some (JVal.jstr "L1".toList)
    categories := []
    articles := [{ article_number := none
                   article_title := "T".toList
                   is_canceled := none
                   article_content := some (some "x".toList)
                   original_content := none }] }

/-- A small well-formed document (witness input). -/
def doc7b : Doc :=
  { element_id := some (JVal.jstr "L2".toList)
    categories := []
    articles := [{ article_number := some (JVal.jstr ['9'])
                   article_title := "TT".toList
                   is_canceled := none
                   article_content := some (some "hello".toList)
                   original_content := none }] }

/-- The chunks `doc7b` ingests to (witness value). -/
def w7chunks : List Chunk := (process_document (fun s => s) 1000 200 10 doc7b).getD []

/-- Small documents for the id-stability witness: identical law id, titles and
contents, different categories (id-irrelevant). -/
def w9doc : Doc :=
  { element_id := some (JVal.jstr "L3".toList)
    categories := ["x".toList]
    articles := [{ article_number := some (JVal.jint 1)
                   article_title := "T".toList
                   is_canceled := none
                   article_content := some (some "abcdefghijklmnop".toList)
                   original_content := none }] }

/-- Same as `w9doc` with different categories. -/
def w9doc2 : Doc :=
  { element_id := some (JVal.jstr "L3".toList)
    categories := ["y".toList]
    articles := [{ article_number := some (JVal.jint 1)
                   article_title := "T".toList
                   is_canceled := none
                   article_content := some (some "abcdefghijklmnop".toList)
                   original_content := none }] }

/-- The chunks `w9doc` ingests to (witness value). -/
def w9chunks : List Chunk := (process_document (fun s => s) 10 2 20 w9doc).getD []

/-- A canceled article with both contents present (C3 witness). -/
def w3art : Art :=
  { article_number := some (JVal.jint 7)
    article_title := "T".toList
    is_canceled := some (JVal.jstr ['1'])
    article_content := some (some "Y".toList)
    original_content := some "X".toList }

/-- An article whose effective text is empty (C3 witness, skip path). -/
def w3empty : Art :=
  { article_number := none
    article_title := "T".toList
    is_canceled := none
    article_content := some (some "   ".toList)
    original_content := none }

/-- Witness splitter output for the amended C6 claim. -/
def w6res : List (List Char) := (split_text 10 5 10 (List.replicate 23 'a')).getD []

/-- Witness candidate list for the amended C5 claim. -/
def w5cands : List Cand :=
  [⟨"x1".toList, 0, some key2500⟩, ⟨"x2".toList, 0, some key2500⟩,
   ⟨"x3".toList, 0, some key2500⟩]

/-- Witness candidate list for C8. -/
def w8cands : List Cand := [⟨"a".toList, 0, none⟩, ⟨"b".toList, 0, some "G".toList⟩]

/-- Witness rerank scoring function for C8. -/
def w8score (c : Cand) : ℚ := if c.id = "a".toList then 1 else 2

/-! ## Lemmas about the stable descending sort -/

theorem insert_desc_perm {α : Type} (key : α → ℚ) (x : α) (l : List α) :
    List.Perm (insert_desc key x l) (x :: l) := by
  induction l with
  | nil => exact List.Perm.refl _
  | cons y ys ih =>
    by_cases h : key y < key x
    · simp [insert_desc, h]
    · simp only [insert_desc, if_neg h]
      exact (ih.cons y).trans (List.Perm.swap x y ys)

theorem sort_desc_perm {α : Type} (key : α → ℚ) (l : List α) :
    List.Perm (sort_desc key l) l := by
  suffices h : ∀ (l acc : List α),
      List.Perm (List.foldl (fun acc x => insert_desc key x acc) acc l) (l ++ acc) by
    simpa using h l []
  intro l
  induction l with
  | nil => intro acc; simp
  | cons x xs ih =>
    intro acc
    refine (ih (insert_desc key x acc)).trans ?_
    exact ((List.Perm.append_left xs (insert_desc_perm key x acc)).trans List.perm_middle)

theorem mem_insert_desc {α : Type} {key : α → ℚ} {x z : α} {l : List α} :
    z ∈ insert_desc key x l ↔ z = x ∨ z ∈ l := by
  rw [(insert_desc_perm key x l).mem_iff, List.mem_cons]

theorem insert_desc_pairwise {α : Type} {key : α → ℚ} {x : α} {l : List α}
    (h : List.Pairwise (fun a b => key b ≤ key a) l) :
    List.Pairwise (fun a b => key b ≤ key a) (insert_desc key x l) := by
  induction l with
  | nil => simp [insert_desc]
  | cons y ys ih =>
    rcases List.pairwise_cons.mp h with ⟨hy, hys⟩
    by_cases hxy : key y < key x
    · rw [show insert_desc key x (y :: ys) = x :: y :: ys by
        simp [insert_desc, if_pos hxy]]
      refine List.pairwise_cons.mpr ⟨?_, h⟩
      intro z hz
      rcases List.mem_cons.mp hz with rfl | hz
      · exact le_of_lt hxy
      · exact (hy z hz).trans (le_of_lt hxy)
    · rw [show insert_desc key x (y :: ys) = y :: insert_desc key x ys by
        simp [insert_desc, if_neg hxy]]
      refine List.pairwise_cons.mpr ⟨?_, ih hys⟩
      intro z hz
      rcases mem_insert_desc.mp hz with rfl | hz
      · exact not_lt.mp hxy
      · exact hy z hz

theorem sort_desc_pairwise {α : Type} (key : α → ℚ) (l : List α) :
    List.Pairwise (fun a b => key b ≤ key a) (sort_desc key l) := by
  suffices h : ∀ (l acc : List α), List.Pairwise (fun a b => key b ≤ key a) acc →
      List.Pairwise (fun a b => key b ≤ key a)
        (List.foldl (fun acc x => insert_desc key x acc) acc l) by
    exact h l [] (List.Pairwise.nil)
  intro l
  induction l with
  | nil => intro acc hacc; simpa using hacc
  | cons x xs ih =>
    intro acc hacc
    exact ih _ (insert_desc_pairwise hacc)

theorem filter_insert_desc {α : Type} {key : α → ℚ} (s : ℚ) (x : α) {l : List α}
    (h : List.Pairwise (fun a b => key b ≤ key a) l) :
    (insert_desc key x l).filter (fun a => decide (key a = s)) =
      if key x = s then l.filter (fun a => decide (key a = s)) ++ [x]
      else l.filter (fun a => decide (key a = s)) := by
  induction l with
  | nil =>
    by_cases hx : key x = s <;> simp [insert_desc, List.filter, hx]
  | cons y ys ih =>
    rcases List.pairwise_cons.mp h with ⟨hy, hys⟩
    by_cases hxy : key y < key x
    · rw [show insert_desc key x (y :: ys) = x :: y :: ys by
        simp [insert_desc, if_pos hxy]]
      by_cases hx : key x = s
      · have hnil : (y :: ys).filter (fun a => decide (key a = s)) = [] := by
          rw [List.filter_eq_nil_iff]
          intro a ha
          have hlt : key a < key x := by
            rcases List.mem_cons.mp ha with rfl | ha
            · exact hxy
            · exact lt_of_le_of_lt (hy a ha) hxy
          simp only [decide_eq_true_eq]
          intro hc
          rw [hx] at hlt
          exact absurd hc (ne_of_lt hlt)
        rw [if_pos hx, hnil, List.filter_cons_of_pos (by simp [hx]), hnil, List.nil_append]
      · rw [if_neg hx, List.filter_cons_of_neg (by simp [hx])]
    · rw [show insert_desc key x (y :: ys) = y :: insert_desc key x ys by
        simp [insert_desc, if_neg hxy]]
      by_cases hy' : key y = s
      · rw [List.filter_cons_of_pos (by simp [hy']), ih hys,
          List.filter_cons_of_pos (by simp [hy'])]
        by_cases hx : key x = s
        · rw [if_pos hx, if_pos hx, List.cons_append]
        · rw [if_neg hx, if_neg hx]
      · rw [List.filter_cons_of_neg (by simp [hy']), ih hys,
          List.filter_cons_of_neg (by simp [hy'])]

theorem filter_sort_desc {α : Type} (key : α → ℚ) (s : ℚ) (l : List α) :
    (sort_desc key l).filter (fun a => decide (key a = s)) =
      l.filter (fun a => decide (key a = s)) := by
  suffices h : ∀ (l acc : List α), List.Pairwise (fun a b => key b ≤ key a) acc →
      (List.foldl (fun acc x => insert_desc key x acc) acc l).filter
          (fun a => decide (key a = s)) =
        acc.filter (fun a => decide (key a = s)) ++ l.filter (fun a => decide (key a = s)) by
    simpa using h l [] List.Pairwise.nil
  intro l
  induction l with
  | nil => intro acc hacc; simp
  | cons x xs ih =>
    intro acc hacc
    rw [List.foldl_cons, ih _ (insert_desc_pairwise hacc), filter_insert_desc s x hacc]
    by_cases hx : key x = s
    · simp [List.filter, hx]
    · simp [List.filter, hx]

/-! ## Lemmas about `group_results` -/

theorem first_seen_keys_append (l : List (List Char)) (k : List Char) :
    first_seen_keys (l ++ [k]) = fs_step (first_seen_keys l) k := by
  simp [first_seen_keys, List.foldl_append]

theorem fs_foldl_nodup (l : List (List Char)) :
    ∀ acc : List (List Char), acc.Nodup → (l.foldl fs_step acc).Nodup := by
  induction l with
  | nil => intro acc h; simpa using h
  | cons k ks ih =>
    intro acc h
    rw [List.foldl_cons]
    refine ih _ ?_
    by_cases hk : k ∈ acc
    · simpa [fs_step, hk] using h
    · simp only [fs_step, if_neg hk]
      rw [List.nodup_append]
      exact ⟨h, List.nodup_singleton k, by simpa using hk⟩

theorem fs_foldl_mem (l : List (List Char)) :
    ∀ (acc : List (List Char)) (k : List Char),
      k ∈ l.foldl fs_step acc ↔ k ∈ acc ∨ k ∈ l := by
  induction l with
  | nil => intro acc k; simp
  | cons x xs ih =>
    intro acc k
    rw [List.foldl_cons, ih]
    by_cases hx : x ∈ acc
    · simp only [fs_step, if_pos hx, List.mem_cons]
      constructor
      · rintro (h | h)
        · exact Or.inl h
        · exact Or.inr (Or.inr h)
      · rintro (h | rfl | h)
        · exact Or.inl h
        · exact Or.inl hx
        · exact Or.inr h
    · simp only [fs_step, if_neg hx, List.mem_append, List.mem_singleton, List.mem_cons]
      tauto

theorem first_seen_keys_nodup (l : List (List Char)) : (first_seen_keys l).Nodup :=
  fs_foldl_nodup l [] List.nodup_nil

theorem mem_first_seen_keys (l : List (List Char)) (k : List Char) :
    k ∈ first_seen_keys l ↔ k ∈ l := by
  rw [first_seen_keys, fs_foldl_mem]
  simp

theorem upsert_group_nil (k : List Char) (c : Cand) :
    upsert_group [] k c = [(k, init_group c)] := rfl

theorem upsert_group_cons (k' : List Char) (d : GroupAcc)
    (rest : List (List Char × GroupAcc)) (k : List Char) (c : Cand) :
    upsert_group ((k', d) :: rest) k c =
      if k' = k then (k', upd_group d c) :: rest
      else (k', d) :: upsert_group rest k c := rfl

/-- `upsert_group` leaves existing keys in place and appends an unseen key. -/
theorem upsert_group_keys (acc : List (List Char × GroupAcc)) (k : List Char) (c : Cand) :
    (upsert_group acc k c).map Prod.fst = fs_step (acc.map Prod.fst) k := by
  induction acc with
  | nil => simp [upsert_group_nil, fs_step]
  | cons kd rest ih =>
    obtain ⟨k', d⟩ := kd
    rw [upsert_group_cons]
    by_cases hk : k' = k
    · subst hk
      rw [if_pos rfl]
      simp only [List.map_cons, fs_step]
      rw [if_pos (List.mem_cons_self _ _)]
    · rw [if_neg hk]
      simp only [List.map_cons, ih, fs_step]
      by_cases hmem : k ∈ rest.map Prod.fst
      · simp [hmem, Ne.symm hk]
      · simp [hmem, Ne.symm hk]

theorem sum_chunks_upsert (acc : List (List Char × GroupAcc)) (k : List Char) (c : Cand) :
    sum_chunks (upsert_group acc k c) = sum_chunks acc + 1 := by
  induction acc with
  | nil => simp [upsert_group_nil, sum_chunks, init_group]
  | cons kd rest ih =>
    obtain ⟨k', d⟩ := kd
    rw [upsert_group_cons]
    by_cases hk : k' = k
    · subst hk
      rw [if_pos rfl]
      have hupd : (upd_group d c).all_chunks = d.all_chunks ++ [c] := rfl
      simp only [sum_chunks, List.map_cons, List.sum_cons, hupd, List.length_append,
        List.length_singleton]
      omega
    · rw [if_neg hk]
      simp only [sum_chunks, List.map_cons, List.sum_cons] at ih ⊢
      rw [ih]
      omega

theorem sum_chunks_group_fold (rs : List Cand) :
    sum_chunks (group_fold rs) = rs.length := by
  suffices h : ∀ (l : List Cand) (acc : List (List Char × GroupAcc)),
      sum_chunks (l.foldl (fun acc c => upsert_group acc (eff_group c) c) acc) =
        sum_chunks acc + l.length by
    simpa [group_fold, sum_chunks] using h rs []
  intro l
  induction l with
  | nil => intro acc; simp
  | cons c cs ih =>
    intro acc
    rw [List.foldl_cons, ih, sum_chunks_upsert, List.length_cons]
    omega

theorem goodData_init (c : Cand) : goodData [c] (init_group c) := by
  refine ⟨rfl, rfl, ?_, [], [], rfl, by simp⟩
  intro c' hc'
  rcases List.mem_singleton.mp hc' with rfl
  exact le_refl _

theorem goodData_upd {part : List Cand} {d : GroupAcc} (c : Cand)
    (h : goodData part d) : goodData (part ++ [c]) (upd_group d c) := by
  obtain ⟨hchunks, hscore, hle, l1, l2, hdec, hl1⟩ := h
  have hb : (upd_group d c).best_score =
      if d.best_score < c.score then c.score else d.best_score := rfl
  have hp : (upd_group d c).primary =
      if d.best_score < c.score then c else d.primary := rfl
  have hc : (upd_group d c).all_chunks = d.all_chunks ++ [c] := rfl
  by_cases hlt : d.best_score < c.score
  · refine ⟨by rw [hc, hchunks], ?_, ?_, part, [], ?_, ?_⟩
    · rw [hb, hp, if_pos hlt, if_pos hlt]
    · intro x hx
      rw [hb, if_pos hlt]
      rcases List.mem_append.mp hx with hx | hx
      · exact (hle x hx).trans (le_of_lt hlt)
      · rcases List.mem_singleton.mp hx with rfl
        exact le_refl _
    · rw [hp, if_pos hlt]
    · intro x hx
      rw [hb, if_pos hlt]
      exact lt_of_le_of_lt (hle x hx) hlt
  · refine ⟨by rw [hc, hchunks], ?_, ?_, l1, l2 ++ [c], ?_, ?_⟩
    · rw [hb, hp, if_neg hlt, if_neg hlt]
      exact hscore
    · intro x hx
      rw [hb, if_neg hlt]
      rcases List.mem_append.mp hx with hx | hx
      · exact hle x hx
      · rcases List.mem_singleton.mp hx with rfl
        exact not_lt.mp hlt
    · rw [hp, if_neg hlt, hdec]
      simp
    · intro x hx
      rw [hb, if_neg hlt]
      exact hl1 x hx

theorem upsert_group_not_mem {acc : List (List Char × GroupAcc)} {k : List Char}
    (hk : k ∉ acc.map Prod.fst) (c : Cand) :
    upsert_group acc k c = acc ++ [(k, init_group c)] := by
  induction acc with
  | nil => simp [upsert_group_nil]
  | cons kd rest ih =>
    obtain ⟨k', d⟩ := kd
    simp only [List.map_cons, List.mem_cons] at hk
    push_neg at hk
    rw [upsert_group_cons, if_neg (fun h => hk.1 h.symm), ih hk.2, List.cons_append]

theorem nodup_keys_unique {acc : List (List Char × GroupAcc)} {k : List Char}
    {x y : GroupAcc} (hnd : (acc.map Prod.fst).Nodup)
    (hx : (k, x) ∈ acc) (hy : (k, y) ∈ acc) : x = y := by
  induction acc with
  | nil => simp at hx
  | cons kd rest ih =>
    obtain ⟨k', d'⟩ := kd
    simp only [List.map_cons, List.nodup_cons] at hnd
    have hnotin : k' ∉ List.map Prod.fst rest := hnd.1
    rcases List.mem_cons.mp hx with hx0 | hx'
    · rcases List.mem_cons.mp hy with hy0 | hy'
      · rw [show x = d' from congrArg Prod.snd hx0, show y = d' from congrArg Prod.snd hy0]
      · exfalso
        apply hnotin
        have hk : k = k' := congrArg Prod.fst hx0
        have hmem : k ∈ List.map Prod.fst rest := List.mem_map_of_mem Prod.fst hy'
        rw [← hk]
        exact hmem
    · rcases List.mem_cons.mp hy with hy0 | hy'
      · exfalso
        apply hnotin
        have hk : k = k' := congrArg Prod.fst hy0
        have hmem : k ∈ List.map Prod.fst rest := List.mem_map_of_mem Prod.fst hx'
        rw [← hk]
        exact hmem
      · exact ih hnd.2 hx' hy'

theorem upsert_group_found {acc : List (List Char × GroupAcc)} {k : List Char}
    {d : GroupAcc} (hnd : (acc.map Prod.fst).Nodup) (hd : (k, d) ∈ acc) (c : Cand) :
    upsert_group acc k c =
      acc.map (fun kd => if kd.1 = k then (k, upd_group d c) else kd) := by
  induction acc with
  | nil => simp at hd
  | cons kd rest ih =>
    obtain ⟨k', d'⟩ := kd
    simp only [List.map_cons, List.nodup_cons] at hnd
    have hnotin : k' ∉ List.map Prod.fst rest := hnd.1
    rw [upsert_group_cons]
    by_cases hk : k' = k
    · subst hk
      rcases List.mem_cons.mp hd with h | h
      · have hdd : d = d' := congrArg Prod.snd h
        subst hdd
        rw [if_pos rfl, List.map_cons, if_pos rfl]
        congr 1
        have hfix : ∀ kd ∈ rest,
            (if kd.1 = k' then ((k', upd_group d c) : List Char × GroupAcc) else kd) = kd := by
          intro kd hkd
          rw [if_neg]
          intro hcon
          apply hnotin
          rw [← hcon]
          exact List.mem_map_of_mem Prod.fst hkd
        rw [List.map_congr_left hfix, List.map_id']
      · exfalso
        apply hnotin
        exact List.mem_map_of_mem Prod.fst h
    · rcases List.mem_cons.mp hd with h | h
      · exact absurd (congrArg Prod.fst h.symm) hk
      · rw [if_neg hk, List.map_cons, if_neg hk, ih hnd.2 h]

theorem mem_upsert_group {acc : List (List Char × GroupAcc)} {k : List Char}
    {c : Cand} {kd : List Char × GroupAcc} (h : kd ∈ upsert_group acc k c)
    (hne : kd.1 ≠ k) : kd ∈ acc := by
  induction acc with
  | nil =>
    rw [upsert_group_nil] at h
    rcases List.mem_singleton.mp h with rfl
    exact absurd rfl hne
  | cons kd' rest ih =>
    obtain ⟨k', d'⟩ := kd'
    rw [upsert_group_cons] at h
    by_cases hk : k' = k
    · rw [if_pos hk] at h
      rcases List.mem_cons.mp h with rfl | h
      · exact absurd hk hne
      · exact List.mem_cons_of_mem _ h
    · rw [if_neg hk] at h
      rcases List.mem_cons.mp h with rfl | h
      · exact List.mem_cons_self _ _
      · exact List.mem_cons_of_mem _ (ih h)

theorem partOf_append_eq {c : Cand} {k : List Char} (hc : eff_group c = k)
    (pre : List Cand) : partOf k (pre ++ [c]) = partOf k pre ++ [c] := by
  simp [partOf, List.filter_append, List.filter, hc]

theorem partOf_append_ne {c : Cand} {k : List Char} (hc : eff_group c ≠ k)
    (pre : List Cand) : partOf k (pre ++ [c]) = partOf k pre := by
  simp [partOf, List.filter_append, List.filter, hc]

theorem partOf_nil_of_not_mem {k : List Char} {pre : List Cand}
    (h : k ∉ pre.map eff_group) : partOf k pre = [] := by
  rw [partOf, List.filter_eq_nil_iff]
  intro c hc
  simp only [decide_eq_true_eq]
  intro hck
  exact h (hck ▸ List.mem_map_of_mem eff_group hc)

theorem fs_step_nodup {ks : List (List Char)} (k : List Char) (h : ks.Nodup) :
    (fs_step ks k).Nodup := by
  by_cases hk : k ∈ ks
  · simpa [fs_step, hk] using h
  · simp only [fs_step, if_neg hk]
    rw [List.nodup_append]
    exact ⟨h, List.nodup_singleton k, by simpa using hk⟩

theorem InvG_step {pre : List Cand} {acc : List (List Char × GroupAcc)} (c : Cand)
    (h : InvG pre acc) : InvG (pre ++ [c]) (upsert_group acc (eff_group c) c) := by
  obtain ⟨hnd, hkeys, hgood⟩ := h
  refine ⟨?_, ?_, ?_⟩
  · rw [upsert_group_keys]
    exact fs_step_nodup _ hnd
  · rw [upsert_group_keys, hkeys, List.map_append, List.map_singleton,
      first_seen_keys_append]
  · by_cases hmem : eff_group c ∈ acc.map Prod.fst
    · obtain ⟨⟨k0, d0⟩, hkd0, hfst⟩ := List.mem_map.mp hmem
      have hkd0' : (eff_group c, d0) ∈ acc := by
        rw [show eff_group c = k0 from hfst.symm]
        exact hkd0
      rw [upsert_group_found hnd hkd0' c]
      intro kd hkd
      obtain ⟨⟨kk, dd⟩, hkd1, hkd1eq⟩ := List.mem_map.mp hkd
      by_cases hk1 : kk = eff_group c
      · have hkd1eq' : ((eff_group c, upd_group d0 c) : List Char × GroupAcc) = kd := by
          rw [← hkd1eq]
          exact (if_pos hk1).symm
        subst hkd1eq'
        show goodData (partOf (eff_group c) (pre ++ [c])) (upd_group d0 c)
        rw [partOf_append_eq rfl]
        have hgd : goodData (partOf (eff_group c) pre) d0 := hgood (eff_group c, d0) hkd0'
        exact goodData_upd c hgd
      · have hkd1eq' : ((kk, dd) : List Char × GroupAcc) = kd := by
          rw [← hkd1eq]
          exact (if_neg hk1).symm
        subst hkd1eq'
        show goodData (partOf kk (pre ++ [c])) dd
        rw [partOf_append_ne (fun hcon => hk1 hcon.symm)]
        exact hgood (kk, dd) hkd1
    · rw [upsert_group_not_mem hmem c]
      intro kd hkd
      obtain ⟨kk, dd⟩ := kd
      rcases List.mem_append.mp hkd with hkd' | hkd'
      · have hne : kk ≠ eff_group c := by
          intro hcon
          apply hmem
          rw [← hcon]
          exact List.mem_map_of_mem Prod.fst hkd'
        show goodData (partOf kk (pre ++ [c])) dd
        rw [partOf_append_ne (fun hcon => hne hcon.symm)]
        exact hgood (kk, dd) hkd'
      · have hkdeq : ((kk, dd) : List Char × GroupAcc) = (eff_group c, init_group c) :=
          List.mem_singleton.mp hkd'
        have hkk : kk = eff_group c := congrArg Prod.fst hkdeq
        have hdd : dd = init_group c := congrArg Prod.snd hkdeq
        subst hkk
        subst hdd
        have hnotpre : eff_group c ∉ pre.map eff_group := by
          rw [← mem_first_seen_keys, ← hkeys]
          exact hmem
        show goodData (partOf (eff_group c) (pre ++ [c])) (init_group c)
        rw [partOf_append_eq rfl, partOf_nil_of_not_mem hnotpre, List.nil_append]
        exact goodData_init c

theorem InvG_foldl :
    ∀ (l pre : List Cand) (acc : List (List Char × GroupAcc)), InvG pre acc →
      InvG (pre ++ l) (l.foldl (fun acc c => upsert_group acc (eff_group c) c) acc) := by
  intro l
  induction l with
  | nil => intro pre acc h; simpa using h
  | cons c cs ih =>
    intro pre acc h
    rw [List.foldl_cons, show pre ++ c :: cs = (pre ++ [c]) ++ cs by simp]
    exact ih (pre ++ [c]) _ (InvG_step c h)

theorem InvG_group_fold (rs : List Cand) : InvG rs (group_fold rs) := by
  have h0 : InvG [] [] := ⟨List.nodup_nil, rfl, by intro kd hkd; simp at hkd⟩
  have := InvG_foldl rs [] [] h0
  simpa [group_fold] using this

/-- Per-element characterisation of `group_results`: every output comes from
the partition of some key, with the maximal score and first-seen-maximal
primary chunk. -/
theorem group_results_mem {rs : List Cand} {g : GroupedResult}
    (hg : g ∈ group_results rs) :
    ∃ k, g.group_count = (partOf k rs).length ∧ g.primary.score = g.score ∧
      (∀ c ∈ partOf k rs, c.score ≤ g.score) ∧
      ∃ l1 l2, partOf k rs = l1 ++ g.primary :: l2 ∧ ∀ c ∈ l1, c.score < g.score := by
  have hg0 : g ∈ sort_desc (fun gr : GroupedResult => gr.score) ((group_fold rs).map to_grouped) :=
    hg
  have hg' : g ∈ (group_fold rs).map to_grouped :=
    (sort_desc_perm _ _).mem_iff.mp hg0
  obtain ⟨kd, hkd, hkdeq⟩ := List.mem_map.mp hg'
  obtain ⟨hchunks, hscore, hle, l1, l2, hdec, hl1⟩ := (InvG_group_fold rs).2.2 kd hkd
  refine ⟨kd.1, ?_, ?_, ?_, l1, l2, ?_, ?_⟩ <;>
    rw [← hkdeq] <;>
    simp only [to_grouped]
  · rw [hchunks]
  · exact hscore
  · exact hle
  · exact hdec
  · exact hl1

/-! ## Lemmas about `pyStrip` and the splitting loop -/

theorem dropWhile_idem (p : Char → Bool) (l : List Char) :
    (l.dropWhile p).dropWhile p = l.dropWhile p := by
  induction l with
  | nil => rfl
  | cons a as ih =>
    rw [List.dropWhile_cons]
    by_cases h : p a
    · rw [if_pos h, ih]
    · rw [if_neg h, List.dropWhile_cons, if_neg h]

theorem trimLeft_idem (l : List Char) : trimLeft (trimLeft l) = trimLeft l :=
  dropWhile_idem isSpaceChar l

theorem trimRight_idem (l : List Char) : trimRight (trimRight l) = trimRight l := by
  simp only [trimRight, List.reverse_reverse]
  rw [dropWhile_idem]

theorem trimRight_isPrefix (l : List Char) : trimRight l <+: l := by
  have h : (trimRight l).reverse <:+ l.reverse := by
    rw [trimRight, List.reverse_reverse]
    exact List.dropWhile_suffix isSpaceChar
  exact List.reverse_suffix.mp h

theorem head_not_space_of_trimLeft_eq {a : Char} {as : List Char}
    (h : trimLeft (a :: as) = a :: as) : isSpaceChar a = false := by
  by_contra hcon
  have ha : isSpaceChar a = true := by
    cases hq : isSpaceChar a
    · exact absurd hq hcon
    · rfl
  rw [trimLeft, List.dropWhile_cons, if_pos ha] at h
  have hle : (List.dropWhile isSpaceChar as).length ≤ as.length :=
    ((List.dropWhile_suffix isSpaceChar).sublist).length_le
  rw [h] at hle
  simp at hle

theorem trimLeft_trimRight_of_trimLeft_eq {l : List Char} (h : trimLeft l = l) :
    trimLeft (trimRight l) = trimRight l := by
  cases l with
  | nil =>
    have : trimRight ([] : List Char) = [] := rfl
    rw [this]
    rfl
  | cons a as =>
    have ha : isSpaceChar a = false := head_not_space_of_trimLeft_eq h
    rcases List.prefix_cons_iff.mp (trimRight_isPrefix (a :: as)) with h0 | ⟨t, ht, _⟩
    · rw [h0]
      rfl
    · rw [ht, trimLeft, List.dropWhile_cons, if_neg (by rw [ha]; exact Bool.false_ne_true)]

theorem pyStrip_idem (l : List Char) : pyStrip (pyStrip l) = pyStrip l := by
  have h1 : trimLeft (trimLeft l) = trimLeft l := trimLeft_idem l
  show trimRight (trimLeft (trimRight (trimLeft l))) = trimRight (trimLeft l)
  rw [trimLeft_trimRight_of_trimLeft_eq h1, trimRight_idem]

theorem splitLoop_zero (maxC ov : Nat) (t : List Char) (s : Nat)
    (acc : List (List Char)) : splitLoop maxC ov t 0 s acc = none := rfl

theorem splitLoop_succ (maxC ov : Nat) (t : List Char) (n s : Nat)
    (acc : List (List Char)) :
    splitLoop maxC ov t (n + 1) s acc =
      if s < t.length then
        if t.length ≤ loopEnd maxC t s then
          some (if loopChunk maxC t s = [] then acc else acc ++ [loopChunk maxC t s])
        else
          splitLoop maxC ov t n (nextStart ov (loopEnd maxC t s))
            (if loopChunk maxC t s = [] then acc else acc ++ [loopChunk maxC t s])
      else some acc := rfl

/-- Every window the loop ever appends is stripped and non-empty. -/
theorem splitLoop_stripped (maxC ov : Nat) (t : List Char) :
    ∀ (fuel s : Nat) (acc res : List (List Char)),
      (∀ w ∈ acc, pyStrip w = w ∧ w ≠ []) →
      splitLoop maxC ov t fuel s acc = some res →
      ∀ w ∈ res, pyStrip w = w ∧ w ≠ [] := by
  intro fuel
  induction fuel with
  | zero =>
    intro s acc res hacc h
    rw [splitLoop_zero] at h
    exact absurd h (by simp)
  | succ n ih =>
    intro s acc res hacc h
    rw [splitLoop_succ] at h
    have hacc' : ∀ w ∈ (if loopChunk maxC t s = [] then acc
        else acc ++ [loopChunk maxC t s]), pyStrip w = w ∧ w ≠ [] := by
      by_cases hc : loopChunk maxC t s = []
      · rw [if_pos hc]; exact hacc
      · rw [if_neg hc]
        intro w hw
        rcases List.mem_append.mp hw with hw | hw
        · exact hacc w hw
        · rcases List.mem_singleton.mp hw with rfl
          exact ⟨pyStrip_idem _, hc⟩
    by_cases hs : s < t.length
    · rw [if_pos hs] at h
      by_cases he : t.length ≤ loopEnd maxC t s
      · rw [if_pos he] at h
        rcases Option.some.inj h with rfl
        exact hacc'
      · rw [if_neg he] at h
        exact ih _ _ _ hacc' h
    · rw [if_neg hs] at h
      rcases Option.some.inj h with rfl
      exact hacc

theorem findCharDesc_eq_none {t : List Char} {c : Char} (hmem : ∀ x ∈ t, x ≠ c)
    (hc : c ≠ nullCh) : ∀ hi lo, findCharDesc t c hi lo = none := by
  intro hi
  induction hi with
  | zero => intro lo; rfl
  | succ m ih =>
    intro lo
    have heq : findCharDesc t c (m + 1) lo =
        if m + 1 ≤ lo then none
        else if t.getD (m + 1) nullCh = c then some (m + 1)
        else findCharDesc t c m lo := rfl
    rw [heq]
    by_cases h1 : m + 1 ≤ lo
    · rw [if_pos h1]
    · rw [if_neg h1]
      have hne : t.getD (m + 1) nullCh ≠ c := by
        by_cases hlt : m + 1 < t.length
        · rw [List.getD_eq_getElem t nullCh hlt]
          exact hmem _ (List.getElem_mem hlt)
        · rw [List.getD_eq_default t nullCh (not_lt.mp hlt)]
          exact fun hcon => hc hcon.symm
      rw [if_neg hne]
      exact ih lo

theorem adjustEnd_clean {t : List Char} (hclean : ∀ x ∈ t, isSpaceChar x = false)
    (s e : Nat) : adjustEnd t s e = e := by
  have hnl : ∀ x ∈ t, x ≠ '\n' := by
    intro x hx hcon
    have h := hclean x hx
    rw [hcon] at h
    simp [isSpaceChar] at h
  have hsp : ∀ x ∈ t, x ≠ ' ' := by
    intro x hx hcon
    have h := hclean x hx
    rw [hcon] at h
    simp [isSpaceChar] at h
  simp only [adjustEnd, findCharDesc_eq_none hnl (by decide),
    findCharDesc_eq_none hsp (by decide)]

/-- On whitespace-free text with `overlap < max_chars` the loop terminates and
the window count obeys the ceiling bound. -/
theorem splitLoop_clean_bound {maxC ov : Nat} {t : List Char}
    (hclean : ∀ x ∈ t, isSpaceChar x = false) (hov : ov < maxC) :
    ∀ (fuel s : Nat) (acc : List (List Char)),
      s < t.length → t.length ≤ s + fuel * (maxC - ov) →
      ∃ res, splitLoop maxC ov t fuel s acc = some res ∧
        res.length ≤ acc.length + (t.length - s + (maxC - ov) - 1) / (maxC - ov) := by
  intro fuel
  induction fuel with
  | zero =>
    intro s acc hs hle
    exact absurd hs (by omega)
  | succ n ih =>
    intro s acc hs hle
    have hd0 : 0 < maxC - ov := by omega
    have hbound1 : 1 ≤ (t.length - s + (maxC - ov) - 1) / (maxC - ov) := by
      rw [Nat.le_div_iff_mul_le hd0]
      omega
    have hacclen : (if loopChunk maxC t s = [] then acc
        else acc ++ [loopChunk maxC t s]).length ≤ acc.length + 1 := by
      by_cases hch : loopChunk maxC t s = []
      · rw [if_pos hch]; omega
      · rw [if_neg hch, List.length_append, List.length_singleton]
    rw [splitLoop_succ, if_pos hs]
    by_cases he : t.length ≤ s + maxC
    · have hloopEnd : loopEnd maxC t s = t.length := by
        simp only [loopEnd]
        rw [min_eq_right he, if_neg (lt_irrefl t.length)]
      rw [hloopEnd, if_pos (le_refl t.length)]
      refine ⟨_, rfl, ?_⟩
      omega
    · have hloopEnd : loopEnd maxC t s = s + maxC := by
        simp only [loopEnd]
        rw [min_eq_left (le_of_lt (not_le.mp he)), if_pos (not_le.mp he),
          adjustEnd_clean hclean]
      have hnext : nextStart ov (s + maxC) = s + (maxC - ov) := by
        simp only [nextStart]
        split_ifs with h <;> omega
      rw [hloopEnd, if_neg he, hnext]
      have hs' : s + (maxC - ov) < t.length := by omega
      have hle' : t.length ≤ s + (maxC - ov) + n * (maxC - ov) := by
        have : (n + 1) * (maxC - ov) = n * (maxC - ov) + (maxC - ov) := by ring
        omega
      obtain ⟨res, heq, hlen⟩ := ih (s + (maxC - ov)) _ hs' hle'
      refine ⟨res, heq, ?_⟩
      have h2 : t.length - (s + (maxC - ov)) + (maxC - ov) - 1 = t.length - s - 1 := by
        omega
      have h3 : t.length - s + (maxC - ov) - 1 = (t.length - s - 1) + (maxC - ov) := by
        omega
      rw [h2] at hlen
      rw [h3, Nat.add_div_right _ hd0]
      generalize hq : (t.length - s - 1) / (maxC - ov) = q at hlen ⊢
      omega

/-- `_split_text` on whitespace-free text: terminates (given linear fuel) with
at most `ceil(len / (max_chars - overlap))` windows. -/
theorem split_text_clean {maxC ov fuel : Nat} {t : List Char}
    (hclean : ∀ x ∈ t, isSpaceChar x = false) (hov : ov < maxC) (hne : t ≠ [])
    (hfuel : t.length ≤ fuel * (maxC - ov)) :
    ∃ res, split_text maxC ov fuel t = some res ∧
      res.length ≤ (t.length + (maxC - ov) - 1) / (maxC - ov) := by
  have hpos : 0 < t.length := List.length_pos.mpr hne
  have hd0 : 0 < maxC - ov := by omega
  rw [split_text]
  by_cases hshort : t.length ≤ maxC
  · rw [if_pos hshort]
    refine ⟨[t], rfl, ?_⟩
    rw [List.length_singleton, Nat.le_div_iff_mul_le hd0]
    omega
  · rw [if_neg hshort]
    obtain ⟨res, heq, hlen⟩ := splitLoop_clean_bound hclean hov fuel 0 []
      (by omega) (by omega)
    refine ⟨res, heq, ?_⟩
    simpa using hlen

/-! ## The non-terminating configuration (claim C1) -/

set_option maxRecDepth 100000 in
/-- With `max_chars = 100`, `overlap = 200` the loop state returns to
`start = 0` after every iteration, so no amount of fuel suffices: the Python
loop runs forever (appending the same window over and over). -/
theorem splitLoop_stuck : ∀ (fuel : Nat) (acc : List (List Char)),
    splitLoop 100 200 t150 fuel 0 acc = none := by
  intro fuel
  induction fuel with
  | zero => intro acc; rfl
  | succ n ih =>
    intro acc
    have hstep : splitLoop 100 200 t150 (n + 1) 0 acc =
        splitLoop 100 200 t150 n 0 (acc ++ [List.replicate 100 'a']) := rfl
    rw [hstep]
    exact ih _

/-! ## Decimal rendering (`str(i)`) round-trip -/

theorem charsVal_append_singleton (xs : List Char) (c : Char) :
    charsVal (xs ++ [c]) = charsVal xs * 10 + digitVal c := by
  simp [charsVal, List.foldl_append]

theorem digitVal_digitChar {d : Nat} (hd : d < 10) : digitVal (digitChar d) = d := by
  interval_cases d <;> decide

theorem charsVal_natToCharsF : ∀ fuel n : Nat, n < 10 ^ fuel →
    charsVal (natToCharsF fuel n) = n := by
  intro fuel
  induction fuel with
  | zero =>
    intro n hn
    rw [pow_zero] at hn
    have h0 : n = 0 := Nat.lt_one_iff.mp hn
    subst h0
    rfl
  | succ f ih =>
    intro n hn
    show charsVal (if n < 10 then [digitChar n]
      else natToCharsF f (n / 10) ++ [digitChar (n % 10)]) = n
    by_cases h : n < 10
    · rw [if_pos h]
      simp [charsVal, digitVal_digitChar h]
    · rw [if_neg h, charsVal_append_singleton,
        ih (n / 10) ((Nat.div_lt_iff_lt_mul (by omega)).mpr (by rw [pow_succ] at hn; exact hn)),
        digitVal_digitChar (Nat.mod_lt n (by omega))]
      omega

theorem charsVal_natToChars (n : Nat) : charsVal (natToChars n) = n := by
  rw [natToChars]
  refine charsVal_natToCharsF (n + 1) n ?_
  have h1 : n < 2 ^ n := Nat.lt_two_pow n
  have h2 : 2 ^ n ≤ 10 ^ n := Nat.pow_le_pow_left (by omega) n
  have h3 : (10 : Nat) ^ n ≤ 10 ^ (n + 1) := Nat.pow_le_pow_right (by omega) (by omega)
  omega

theorem natToChars_eq_one_iff (n : Nat) : natToChars n = ['1'] ↔ n = 1 := by
  constructor
  · intro h
    have h2 := congrArg charsVal h
    rw [charsVal_natToChars, show charsVal ['1'] = 1 from rfl] at h2
    exact h2
  · rintro rfl
    rfl

theorem pyStr_eq_one_iff (v : JVal) :
    pyStr v = ['1'] ↔ v = JVal.jstr ['1'] ∨ v = JVal.jint 1 := by
  cases v with
  | jnull => simp [pyStr]
  | jstr s =>
    simp only [pyStr]
    constructor
    · intro h; exact Or.inl (by rw [h])
    · rintro (h | h)
      · cases h; rfl
      · cases h
  | jint n =>
    cases n with
    | ofNat m =>
      simp only [pyStr, intToChars]
      rw [natToChars_eq_one_iff]
      constructor
      · intro h
        refine Or.inr ?_
        rw [h]
        rfl
      · rintro (h | h)
        · cases h
        · cases h
          rfl
    | negSucc m =>
      simp only [pyStr, intToChars]
      constructor
      · intro h
        exact absurd (List.head_eq_of_cons_eq h) (by decide)
      · rintro (h | h) <;> cases h
  | jbool b => cases b <;> simp [pyStr]

/-! ## Grouping a single-key candidate list (used by the end-to-end claim) -/

theorem fs_foldl_const {k : List Char} :
    ∀ l : List (List Char), (∀ x ∈ l, x = k) → l.foldl fs_step [k] = [k] := by
  intro l
  induction l with
  | nil => intro _; rfl
  | cons x xs ih =>
    intro hall
    rw [List.foldl_cons, hall x (List.mem_cons_self _ _),
      show fs_step [k] k = [k] by simp [fs_step]]
    exact ih fun x hx => hall x (List.mem_cons_of_mem _ hx)

theorem first_seen_keys_const {k : List Char} {l : List (List Char)}
    (hall : ∀ x ∈ l, x = k) (hne : l ≠ []) : first_seen_keys l = [k] := by
  cases l with
  | nil => exact absurd rfl hne
  | cons x xs =>
    rw [first_seen_keys, List.foldl_cons,
      show fs_step [] x = [x] by simp [fs_step],
      hall x (List.mem_cons_self _ _)]
    exact fs_foldl_const xs fun y hy => hall y (List.mem_cons_of_mem _ hy)

theorem group_results_const_key {k : List Char} {l : List Cand} (hne : l ≠ [])
    (hall : ∀ c ∈ l, eff_group c = k) :
    (group_results l).length = 1 ∧ ∀ gr ∈ group_results l, gr.group_count = l.length := by
  have hmapconst : ∀ x ∈ l.map eff_group, x = k := by
    intro x hx
    obtain ⟨c, hc, rfl⟩ := List.mem_map.mp hx
    exact hall c hc
  have hmapne : l.map eff_group ≠ [] := by
    intro hcon
    exact hne (List.map_eq_nil_iff.mp hcon)
  have hkeys : (group_fold l).map Prod.fst = [k] := by
    rw [(InvG_group_fold l).2.1]
    exact first_seen_keys_const hmapconst hmapne
  have hlen1 : (group_fold l).length = 1 := by
    have := congrArg List.length hkeys
    simpa using this
  obtain ⟨kd, hkd⟩ := List.length_eq_one.mp hlen1
  have hsum : kd.2.all_chunks.length = l.length := by
    have hs := sum_chunks_group_fold l
    rw [hkd] at hs
    simpa [sum_chunks] using hs
  have hperm : List.Perm (group_results l) ((group_fold l).map to_grouped) :=
    sort_desc_perm _ _
  constructor
  · rw [hperm.length_eq, hkd]
    rfl
  · intro gr hgr
    have hgr' : gr ∈ (group_fold l).map to_grouped := hperm.mem_iff.mp hgr
    rw [hkd] at hgr'
    rcases List.mem_singleton.mp hgr' with rfl
    exact hsum

theorem eff_group_attach (f : Cand → ℚ) (c : Cand) :
    eff_group { c with score := f c } = eff_group c := rfl

theorem rerank_perm (f : Cand → ℚ) (l : List Cand) (k : Nat) (hk : l.length ≤ k) :
    List.Perm (rerank f l k) (attach_scores f l) := by
  rw [rerank]
  by_cases hl : l = []
  · rw [if_pos hl, hl]
    exact List.Perm.refl _
  · rw [if_neg hl]
    have hperm : List.Perm (sort_desc (fun c : Cand => c.score) (attach_scores f l))
        (attach_scores f l) := sort_desc_perm _ _
    have hlen : (sort_desc (fun c : Cand => c.score) (attach_scores f l)).length ≤ k := by
      rw [hperm.length_eq]
      simpa [attach_scores] using hk
    rw [List.take_of_length_le hlen]
    exact hperm

/-! ## Per-article chunk shape lemmas -/

theorem mk_chunks_group_id (h : List Char → List Char) (lawIdS : List Char)
    (cats : List (List Char)) (a : Art) (total : Nat) :
    ∀ (i : Nat) (ws : List (List Char)) (c : Chunk),
      c ∈ mk_chunks h lawIdS cats a total i ws →
      c.article_group_id = lawIdS ++ '_' :: pyStr (a.article_number.getD (JVal.jstr [])) := by
  intro i ws
  induction ws generalizing i with
  | nil => intro c hc; exact absurd hc (by simp [mk_chunks])
  | cons w ws ih =>
    intro c hc
    rcases List.mem_cons.mp hc with rfl | hc
    · rfl
    · exact ih (i + 1) c hc

theorem mk_chunks_id (h : List Char → List Char) (lawIdS : List Char)
    (cats : List (List Char)) (a : Art) (total : Nat) :
    ∀ (i : Nat) (ws : List (List Char)) (c : Chunk),
      c ∈ mk_chunks h lawIdS cats a total i ws →
      ∃ j : Nat, c.id = h (lawIdS ++ '_' :: a.article_title ++ '_' :: natToChars j) ∧
        c.chunk_index = j := by
  intro i ws
  induction ws generalizing i with
  | nil => intro c hc; exact absurd hc (by simp [mk_chunks])
  | cons w ws ih =>
    intro c hc
    rcases List.mem_cons.mp hc with rfl | hc
    · exact ⟨i, rfl, rfl⟩
    · exact ih (i + 1) c hc

theorem process_articles_mem {f : Art → Option (List Chunk)} :
    ∀ {as : List Art} {out : List Chunk}, process_articles f as = some out →
      ∀ c ∈ out, ∃ a ∈ as, ∃ l, f a = some l ∧ c ∈ l := by
  intro as
  induction as with
  | nil =>
    intro out h c hc
    rcases Option.some.inj h with rfl
    exact absurd hc (by simp)
  | cons a as ih =>
    intro out h c hc
    rw [process_articles] at h
    cases hfa : f a with
    | none => rw [hfa] at h; exact absurd h (by simp)
    | some ca =>
      rw [hfa] at h
      cases hrest : process_articles f as with
      | none => rw [hrest] at h; exact absurd h (by simp)
      | some cs =>
        rw [hrest] at h
        have hout : ca ++ cs = out := by
          simpa using h
        subst hout
        rcases List.mem_append.mp hc with hc' | hc'
        · exact ⟨a, List.mem_cons_self _ _, ca, hfa, hc'⟩
        · obtain ⟨a', ha', l, hl, hcl⟩ := ih hrest c hc'
          exact ⟨a', List.mem_cons_of_mem _ ha', l, hl, hcl⟩

/-! ## The chunk-id sequence as a function of (law id, title, effective text) -/

theorem mk_chunks_map_id (h : List Char → List Char) (lawIdS : List Char)
    (cats : List (List Char)) (a : Art) (total : Nat) :
    ∀ (i : Nat) (ws : List (List Char)),
      (mk_chunks h lawIdS cats a total i ws).map Chunk.id =
        mk_ids h lawIdS a.article_title i ws := by
  intro i ws
  induction ws generalizing i with
  | nil => rfl
  | cons w ws ih => simp [mk_chunks, mk_ids, ih, mk_chunk]

theorem process_article_map_id (h : List Char → List Char) (maxC ov fuel : Nat)
    (lawIdS : List Char) (cats : List (List Char)) (a : Art) :
    Option.map (List.map Chunk.id) (process_article h maxC ov fuel lawIdS cats a) =
      article_ids h maxC ov fuel lawIdS a.article_title (effective_text a) := by
  rw [process_article, article_ids]
  by_cases heff : effective_text a = []
  · rw [if_pos heff, if_pos heff]
    rfl
  · rw [if_neg heff, if_neg heff]
    cases hsp : split_text maxC ov fuel (effective_text a) with
    | none => rfl
    | some ws => simp [mk_chunks_map_id]

theorem process_articles_map_id (h : List Char → List Char) (maxC ov fuel : Nat)
    (lawIdS : List Char) (cats : List (List Char)) :
    ∀ as : List Art,
      Option.map (List.map Chunk.id)
          (process_articles (process_article h maxC ov fuel lawIdS cats) as) =
        articles_ids h maxC ov fuel lawIdS
          (as.map (fun a => (a.article_title, effective_text a))) := by
  intro as
  induction as with
  | nil => rfl
  | cons a as ih =>
    rw [process_articles, List.map_cons, articles_ids]
    have hA := process_article_map_id h maxC ov fuel lawIdS cats a
    cases hfa : process_article h maxC ov fuel lawIdS cats a with
    | none =>
      rw [hfa] at hA
      rw [← hA]
      rfl
    | some ca =>
      rw [hfa] at hA
      rw [← hA]
      cases hrest : process_articles (process_article h maxC ov fuel lawIdS cats) as with
      | none =>
        rw [hrest] at ih
        rw [← ih]
        rfl
      | some cs =>
        rw [hrest] at ih
        rw [← ih]
        simp [hrest]

/-- The id sequence of a whole document is a function of the law id string and
the per-article (title, effective text) list alone. -/
theorem process_document_map_id (h : List Char → List Char) (maxC ov fuel : Nat)
    (d : Doc) :
    Option.map (List.map Chunk.id) (process_document h maxC ov fuel d) =
      articles_ids h maxC ov fuel (law_id_str d)
        (d.articles.map (fun a => (a.article_title, effective_text a))) :=
  process_articles_map_id h maxC ov fuel (law_id_str d) d.categories d.articles

/-! ## Claim theorems -/

/-- **C1.** The claim says `_split_text` always terminates, with a degenerate
config guard falling back to a step of `max_chars` when
`overlap_chars ≥ max_chars`.  The code's guard (`if start >= end: start = end`)
never fires after `start` is clamped to `0`, so on a 150-character text with
`max_chars = 100`, `overlap = 200` the loop revisits `start = 0` forever: in
the fuel embedding, no fuel bound is ever enough.  This contradicts the code's
own comment ("Avoid infinite loops if overlap is too big"): a code bug. -/
theorem claim_C1_split_termination (fuel : Nat) :
    split_text 100 200 fuel t150 = none := by
  rw [split_text, if_neg (by decide)]
  exact splitLoop_stuck fuel []

/-- **C4, counterexample.** With `max_chars = 10`, `overlap = 5` and `t52`
(52 characters, a newline every 4 positions), the boundary adjustment shortens
every window, and `split` returns 12 windows while
`ceil(len / (max_chars - overlap)) = 11`. -/
theorem claim_C4_counterexample :
    Option.map List.length (split_text 10 5 100 t52) = some 12 ∧
    (t52.length + (10 - 5) - 1) / (10 - 5) = 11 ∧ ¬(12 ≤ 11) := by
  exact ⟨by decide, by decide, by decide⟩

/-- **C4, amended.** The ceiling bound `ceil(len / (max_chars - overlap))`
holds when no boundary adjustment can fire (text without newlines or spaces)
and `overlap < max_chars`; the loop then also terminates on linear fuel.
(The counterexample shows boundary adjustments can exceed the bound, and C1
shows `overlap ≥ max_chars` need not terminate at all.) -/
theorem claim_C4_amended (maxC ov fuel : Nat) (t : List Char)
    (hclean : ∀ x ∈ t, isSpaceChar x = false) (hov : ov < maxC) (hne : t ≠ [])
    (hfuel : t.length ≤ fuel * (maxC - ov)) :
    ∃ res, split_text maxC ov fuel t = some res ∧
      res.length ≤ (t.length + (maxC - ov) - 1) / (maxC - ov) :=
  split_text_clean hclean hov hne hfuel

/-- Witness for the amended C4 claim at `max_chars = 10`, `overlap = 5`,
`t = 23` letters. -/
theorem claim_C4_amended_witness :
    ∃ res, split_text 10 5 10 (List.replicate 23 'a') = some res ∧
      res.length ≤ ((List.replicate 23 'a').length + (10 - 5) - 1) / (10 - 5) :=
  claim_C4_amended 10 5 10 (List.replicate 23 'a') (by decide) (by decide)
    (by decide) (by decide)

/-- **C6, counterexample.** For `text = " "` (one space, within the budget)
the fast path returns the text whole: the returned window strips to the empty
string, so it is neither trimmed nor dropped — the trim/drop guarantee only
holds on the long-text loop path. -/
theorem claim_C6_counterexample :
    split_text 10 5 5 [' '] = some [[' ']] ∧ pyStrip [' '] = [] ∧
      ([' '] : List Char) ≠ [] := by
  exact ⟨rfl, rfl, by decide⟩

/-- **C6, amended.** Windows produced by the splitting loop (texts longer than
`max_chars`) are stripped and non-empty after stripping; texts within the
budget are returned whole and untrimmed as a one-element sequence. -/
theorem claim_C6_amended (maxC ov fuel : Nat) (t : List Char)
    (res : List (List Char)) (hres : split_text maxC ov fuel t = some res) :
    (t.length ≤ maxC → res = [t]) ∧
    (maxC < t.length → ∀ w ∈ res, pyStrip w = w ∧ w ≠ []) := by
  rw [split_text] at hres
  by_cases hlen : t.length ≤ maxC
  · rw [if_pos hlen] at hres
    rcases Option.some.inj hres with rfl
    exact ⟨fun _ => rfl, fun hcon => absurd hlen (by omega)⟩
  · rw [if_neg hlen] at hres
    refine ⟨fun hcon => absurd hcon hlen, fun _ => ?_⟩
    exact splitLoop_stripped maxC ov t fuel 0 [] res (by simp) hres

/-- Witness for the amended C6 claim: 23 letters, `max_chars = 10`. -/
theorem claim_C6_amended_witness :
    split_text 10 5 10 (List.replicate 23 'a') = some w6res ∧
    (((List.replicate 23 'a').length ≤ 10 → w6res = [List.replicate 23 'a']) ∧
      (10 < (List.replicate 23 'a').length →
        ∀ w ∈ w6res, pyStrip w = w ∧ w ≠ [])) :=
  ⟨by decide, claim_C6_amended 10 5 10 (List.replicate 23 'a') w6res (by decide)⟩

/-! ## Selector lemmas (claim C3) -/

theorem isCanceledStr_eq_one_iff (a : Art) :
    isCanceledStr a = ['1'] ↔ boolLikeCanceled a := by
  rw [isCanceledStr, boolLikeCanceled]
  cases hv : a.is_canceled with
  | none =>
    constructor
    · intro h
      exact absurd h (by decide)
    · rintro (h | h) <;> exact Option.noConfusion h
  | some v =>
    show pyStr v = ['1'] ↔ some v = some (JVal.jstr ['1']) ∨ some v = some (JVal.jint 1)
    rw [pyStr_eq_one_iff]
    constructor
    · rintro (rfl | rfl)
      · exact Or.inl rfl
      · exact Or.inr rfl
    · rintro (h | h)
      · exact Or.inl (Option.some.inj h)
      · exact Or.inr (Option.some.inj h)

theorem statusLabel_eq_spec (a : Art) : statusLabel a = (select_spec a).1 := by
  rw [statusLabel]
  show _ = if boolLikeCanceled a then canceledLabel else activeLabel
  by_cases hc : isCanceledStr a = ['1']
  · rw [if_pos hc, if_pos ((isCanceledStr_eq_one_iff a).mp hc)]
  · rw [if_neg hc, if_neg (fun hb => hc ((isCanceledStr_eq_one_iff a).mpr hb))]

theorem optStrTruthy_iff (o : Option (List Char)) :
    optStrTruthy o = true ↔ o.getD [] ≠ [] := by
  cases o with
  | none => simp [optStrTruthy]
  | some s => simp [optStrTruthy]

theorem effective_text_eq_spec (a : Art) : effective_text a = (select_spec a).2 := by
  rw [effective_text]
  show _ = pyStrip (if boolLikeCanceled a ∧ spec_original a ≠ [] then spec_original a
    else spec_current a)
  congr 1
  by_cases h1 : isCanceledStr a = ['1'] ∧ optStrTruthy a.original_content
  · rw [if_pos h1]
    have hb : boolLikeCanceled a := (isCanceledStr_eq_one_iff a).mp h1.1
    have ho : spec_original a ≠ [] := by
      rw [spec_original, ← optStrTruthy_iff]
      exact h1.2
    rw [if_pos ⟨hb, ho⟩, spec_original]
  · rw [if_neg h1]
    have hnb : ¬(boolLikeCanceled a ∧ spec_original a ≠ []) := by
      rintro ⟨hb, ho⟩
      refine h1 ⟨(isCanceledStr_eq_one_iff a).mpr hb, ?_⟩
      rw [optStrTruthy_iff]
      rw [spec_original] at ho
      exact ho
    rw [if_neg hnb, raw_content, spec_current]
    cases hac : a.article_content with
    | none => rfl
    | some v =>
      cases v with
      | none => rfl
      | some s => rfl

/-- **C3.** The status label is the canceled label exactly when the flag is
boolean-like `"1"`/`1`; the effective text agrees with the spec's `select`
contract (original content when canceled with non-empty original content,
else current content, stripped, missing/null as empty); and an article whose
effective text is empty contributes no chunk. -/
theorem claim_C3_selector (a : Art) :
    (statusLabel a = canceledLabel ↔ boolLikeCanceled a) ∧
    (statusLabel a, effective_text a) = select_spec a ∧
    ∀ (h : List Char → List Char) (maxC ov fuel : Nat) (lid : List Char)
      (cats : List (List Char)), effective_text a = [] →
        process_article h maxC ov fuel lid cats a = some [] := by
  refine ⟨?_, ?_, ?_⟩
  · rw [statusLabel]
    by_cases hc : isCanceledStr a = ['1']
    · rw [if_pos hc]
      exact iff_of_true rfl ((isCanceledStr_eq_one_iff a).mp hc)
    · rw [if_neg hc]
      refine iff_of_false (by decide) (fun hb => hc ((isCanceledStr_eq_one_iff a).mpr hb))
  · rw [statusLabel_eq_spec, effective_text_eq_spec]
  · intro h maxC ov fuel lid cats heff
    rw [process_article, if_pos heff]

/-- Witness for C3: a canceled article with non-empty original content selects
the original content with the canceled label, and an all-whitespace article
produces no chunk. -/
theorem claim_C3_selector_witness :
    ((statusLabel w3art = canceledLabel ↔ boolLikeCanceled w3art) ∧
      (statusLabel w3art, effective_text w3art) = select_spec w3art ∧
      ∀ (h : List Char → List Char) (maxC ov fuel : Nat) (lid : List Char)
        (cats : List (List Char)), effective_text w3art = [] →
          process_article h maxC ov fuel lid cats w3art = some []) ∧
    effective_text w3art = "X".toList ∧
    effective_text w3empty = [] ∧
    process_article (fun s => s) 10 2 5 [] [] w3empty = some [] :=
  ⟨claim_C3_selector w3art, by decide, by decide,
    (claim_C3_selector w3empty).2.2 (fun s => s) 10 2 5 [] [] (by decide)⟩

/-! ## Claim C2 -/

/-- **C2.** `group_results` partitions candidates by effective group key (the
payload's `article_group_id`, falling back to the candidate's id when absent
or empty), emits exactly one result per partition carrying the partition's
maximum score, the maximum-scoring chunk (first-seen on ties) as primary, and
the partition size as `group_count`, sorted descending by best score; the
spec's concrete three-candidate example evaluates exactly as claimed. -/
theorem claim_C2_group_results (rs : List Cand) (g : GroupedResult)
    (hg : g ∈ group_results rs) :
    group_results exCands = exGrouped ∧
    List.Pairwise (fun a b => b.score ≤ a.score) (group_results rs) ∧
    ∃ k, g.primary ∈ partOf k rs ∧ g.group_count = (partOf k rs).length ∧
      g.primary.score = g.score ∧ (∀ c ∈ partOf k rs, c.score ≤ g.score) ∧
      ∃ l1 l2, partOf k rs = l1 ++ g.primary :: l2 ∧ ∀ c ∈ l1, c.score < g.score := by
  refine ⟨by decide, sort_desc_pairwise (fun gr : GroupedResult => gr.score) _, ?_⟩
  obtain ⟨k, hcount, hscore, hle, l1, l2, hdec, hl1⟩ := group_results_mem hg
  refine ⟨k, ?_, hcount, hscore, hle, l1, l2, hdec, hl1⟩
  rw [hdec]
  exact List.mem_append.mpr (Or.inr (List.mem_cons_self _ _))

/-- Witness for C2 at the spec's example: the `A` result (best 0.9, 2 chunks)
is an output of `group_results`. -/
theorem claim_C2_group_results_witness :
    (⟨Rat.divInt 9 10, ⟨"c2".toList, Rat.divInt 9 10, some "A".toList⟩, 2⟩ : GroupedResult) ∈
        group_results exCands ∧
    (group_results exCands = exGrouped ∧
      List.Pairwise (fun a b => b.score ≤ a.score) (group_results exCands) ∧
      ∃ k, (⟨Rat.divInt 9 10, ⟨"c2".toList, Rat.divInt 9 10, some "A".toList⟩, 2⟩ :
            GroupedResult).primary ∈ partOf k exCands ∧
        (⟨Rat.divInt 9 10, ⟨"c2".toList, Rat.divInt 9 10, some "A".toList⟩, 2⟩ :
            GroupedResult).group_count = (partOf k exCands).length ∧
        (⟨Rat.divInt 9 10, ⟨"c2".toList, Rat.divInt 9 10, some "A".toList⟩, 2⟩ :
            GroupedResult).primary.score =
          (⟨Rat.divInt 9 10, ⟨"c2".toList, Rat.divInt 9 10, some "A".toList⟩, 2⟩ : GroupedResult).score ∧
        (∀ c ∈ partOf k exCands, c.score ≤
          (⟨Rat.divInt 9 10, ⟨"c2".toList, Rat.divInt 9 10, some "A".toList⟩, 2⟩ : GroupedResult).score) ∧
        ∃ l1 l2, partOf k exCands = l1 ++
            (⟨Rat.divInt 9 10, ⟨"c2".toList, Rat.divInt 9 10, some "A".toList⟩, 2⟩ :
              GroupedResult).primary :: l2 ∧
          ∀ c ∈ l1, c.score <
            (⟨Rat.divInt 9 10, ⟨"c2".toList, Rat.divInt 9 10, some "A".toList⟩, 2⟩ : GroupedResult).score) :=
  ⟨by decide, claim_C2_group_results exCands _ (by decide)⟩

/-! ## Claim C8 -/

/-- **C8.** `rerank` on a non-empty candidate list attaches the externally
computed rerank score to every candidate, sorts stably descending by that
score (the sorted list is a permutation, is pairwise descending, and preserves
the original relative order of candidates with exactly equal scores — stated
as score-level filter preservation), and truncates to the first `top_k`. -/
theorem claim_C8_rerank (f : Cand → ℚ) (l : List Cand) (k : Nat) (hl : l ≠ []) :
    rerank f l k =
      (sort_desc (fun c : Cand => c.score) (attach_scores f l)).take k ∧
    attach_scores f l = l.map (fun c => { c with score := f c }) ∧
    List.Perm (sort_desc (fun c : Cand => c.score) (attach_scores f l))
      (attach_scores f l) ∧
    List.Pairwise (fun a b => b.score ≤ a.score)
      (sort_desc (fun c : Cand => c.score) (attach_scores f l)) ∧
    ∀ s : ℚ,
      (sort_desc (fun c : Cand => c.score) (attach_scores f l)).filter
          (fun c => decide (c.score = s)) =
        (attach_scores f l).filter (fun c => decide (c.score = s)) := by
  refine ⟨?_, rfl, sort_desc_perm _ _, sort_desc_pairwise _ _,
    fun s => filter_sort_desc _ s _⟩
  rw [rerank, if_neg hl]

/-- Witness for C8 at a two-candidate list. -/
theorem claim_C8_rerank_witness :
    rerank w8score w8cands 5 =
      (sort_desc (fun c : Cand => c.score) (attach_scores w8score w8cands)).take 5 ∧
    attach_scores w8score w8cands =
      w8cands.map (fun c => { c with score := w8score c }) ∧
    List.Perm (sort_desc (fun c : Cand => c.score) (attach_scores w8score w8cands))
      (attach_scores w8score w8cands) ∧
    List.Pairwise (fun a b => b.score ≤ a.score)
      (sort_desc (fun c : Cand => c.score) (attach_scores w8score w8cands)) ∧
    ∀ s : ℚ,
      (sort_desc (fun c : Cand => c.score) (attach_scores w8score w8cands)).filter
          (fun c => decide (c.score = s)) =
        (attach_scores w8score w8cands).filter (fun c => decide (c.score = s)) :=
  claim_C8_rerank w8score w8cands 5 (by decide)

/-! ## Claim C10 -/

/-- **C10.** `group_results` conserves candidates: the `group_count`s of the
output sum to the input length, the number of outputs equals the number of
distinct effective group keys (the first-seen key list, which is duplicate
free and has exactly the keys occurring in the input), so every input
candidate is counted in exactly one group. -/
theorem claim_C10_conservation (rs : List Cand) :
    ((group_results rs).map (fun gr => gr.group_count)).sum = rs.length ∧
    (group_results rs).length = (first_seen_keys (rs.map eff_group)).length ∧
    (first_seen_keys (rs.map eff_group)).Nodup ∧
    ∀ k, k ∈ first_seen_keys (rs.map eff_group) ↔ k ∈ rs.map eff_group := by
  refine ⟨?_, ?_, first_seen_keys_nodup _, mem_first_seen_keys _⟩
  · have hperm : List.Perm ((group_results rs).map (fun gr => gr.group_count))
        (((group_fold rs).map to_grouped).map (fun gr => gr.group_count)) :=
      (sort_desc_perm (fun gr : GroupedResult => gr.score) _).map _
    rw [hperm.sum_eq, List.map_map, ← sum_chunks_group_fold rs, sum_chunks]
    rfl
  · have hlen : (group_results rs).length = (group_fold rs).length := by
      have hp : List.Perm (group_results rs) ((group_fold rs).map to_grouped) :=
        sort_desc_perm (fun gr : GroupedResult => gr.score) ((group_fold rs).map to_grouped)
      rw [hp.length_eq, List.length_map]
    have hkeys := congrArg List.length (InvG_group_fold rs).2.1
    rw [List.length_map] at hkeys
    rw [hlen, hkeys]

/-! ## Per-article output shape (claims C7, C9) -/

theorem process_article_group_shape {h : List Char → List Char} {maxC ov fuel : Nat}
    {lid : List Char} {cats : List (List Char)} {a : Art} {l : List Chunk}
    (hp : process_article h maxC ov fuel lid cats a = some l) :
    ∀ c ∈ l, c.article_group_id =
      lid ++ '_' :: pyStr (a.article_number.getD (JVal.jstr [])) := by
  rw [process_article] at hp
  by_cases heff : effective_text a = []
  · rw [if_pos heff] at hp
    rcases Option.some.inj hp with rfl
    intro c hc
    exact absurd hc (by simp)
  · rw [if_neg heff] at hp
    cases hsp : split_text maxC ov fuel (effective_text a) with
    | none => rw [hsp] at hp; exact absurd hp (by simp)
    | some ws =>
      rw [hsp] at hp
      have hl : mk_chunks h lid cats a ws.length 0 ws = l := by simpa using hp
      subst hl
      exact fun c hc => mk_chunks_group_id h lid cats a ws.length 0 ws c hc

theorem process_article_id_shape {h : List Char → List Char} {maxC ov fuel : Nat}
    {lid : List Char} {cats : List (List Char)} {a : Art} {l : List Chunk}
    (hp : process_article h maxC ov fuel lid cats a = some l) :
    ∀ c ∈ l, ∃ j : Nat,
      c.id = h (lid ++ '_' :: a.article_title ++ '_' :: natToChars j) ∧
      c.chunk_index = j := by
  rw [process_article] at hp
  by_cases heff : effective_text a = []
  · rw [if_pos heff] at hp
    rcases Option.some.inj hp with rfl
    intro c hc
    exact absurd hc (by simp)
  · rw [if_neg heff] at hp
    cases hsp : split_text maxC ov fuel (effective_text a) with
    | none => rw [hsp] at hp; exact absurd hp (by simp)
    | some ws =>
      rw [hsp] at hp
      have hl : mk_chunks h lid cats a ws.length 0 ws = l := by simpa using hp
      subst hl
      exact fun c hc => mk_chunks_id h lid cats a ws.length 0 ws c hc

/-! ## Claim C7 -/

/-- **C7, counterexample.** The claim says the group key falls back to the
article title when the number is absent.  It does not: for a law `L1` with one
article with no `article_number` and title `"T"`, the produced chunk's group
key is `"L1_"` (empty second component), not the claimed `"L1_T"`. -/
theorem claim_C7_counterexample :
    Option.map (List.map Chunk.article_group_id)
        (process_document (fun s => s) 1000 200 10 doc7) =
      some ["L1_".toList] ∧
    ("L1_".toList : List Char) ≠ "L1_T".toList :=
  ⟨by decide, by decide⟩

/-- **C7, amended.** Every chunk of every article carries the group key
`law.id + "_" + article.number`, where a missing `article_number` contributes
the empty string (`str("")`) — there is no fallback to the article title. -/
theorem claim_C7_amended (h : List Char → List Char) (maxC ov fuel : Nat)
    (d : Doc) (chunks : List Chunk)
    (hp : process_document h maxC ov fuel d = some chunks) :
    ∀ c ∈ chunks, ∃ a ∈ d.articles,
      c.article_group_id =
        law_id_str d ++ '_' :: pyStr (a.article_number.getD (JVal.jstr [])) := by
  intro c hc
  obtain ⟨a, ha, l, hl, hcl⟩ := process_articles_mem hp c hc
  exact ⟨a, ha, process_article_group_shape hl c hcl⟩

/-- Witness for the amended C7 at a one-article document. -/
theorem claim_C7_amended_witness :
    process_document (fun s => s) 1000 200 10 doc7b = some w7chunks ∧
    ∀ c ∈ w7chunks, ∃ a ∈ doc7b.articles,
      c.article_group_id =
        law_id_str doc7b ++ '_' :: pyStr (a.article_number.getD (JVal.jstr [])) :=
  ⟨by decide, claim_C7_amended (fun s => s) 1000 200 10 doc7b w7chunks (by decide)⟩

/-! ## Claim C9 -/

/-- **C9.** Chunk identity is deterministic and content-addressed by
`(law id, article title, window index)`: every produced chunk's id is the hash
of exactly that triple, and the id sequence of a run depends only on the law
id string and the per-article (title, effective text) list — so re-ingesting
unchanged input (here: a second document with the same triple data, e.g. the
same document again) yields the identical id sequence, making upsert
overwrite rather than duplicate. -/
theorem claim_C9_idempotent_ids (h : List Char → List Char) (maxC ov fuel : Nat)
    (d d2 : Doc) (chunks : List Chunk)
    (hp : process_document h maxC ov fuel d = some chunks)
    (hid : law_id_str d = law_id_str d2)
    (hart : d.articles.map (fun a => (a.article_title, effective_text a)) =
      d2.articles.map (fun a => (a.article_title, effective_text a))) :
    (∀ c ∈ chunks, ∃ a ∈ d.articles, ∃ j : Nat,
      c.id = h (law_id_str d ++ '_' :: a.article_title ++ '_' :: natToChars j) ∧
      c.chunk_index = j) ∧
    Option.map (List.map Chunk.id) (process_document h maxC ov fuel d) =
      Option.map (List.map Chunk.id) (process_document h maxC ov fuel d2) := by
  constructor
  · intro c hc
    obtain ⟨a, ha, l, hl, hcl⟩ := process_articles_mem hp c hc
    obtain ⟨j, hj, hjidx⟩ := process_article_id_shape hl c hcl
    exact ⟨a, ha, j, hj, hjidx⟩
  · rw [process_document_map_id, process_document_map_id, hid, hart]

/-- Witness for C9: the same (law id, titles, contents) ingested with two
different category lists yields the same id sequence. -/
theorem claim_C9_idempotent_ids_witness :
    (process_document (fun s => s) 10 2 20 w9doc = some w9chunks ∧
      law_id_str w9doc = law_id_str w9doc2 ∧
      w9doc.articles.map (fun a => (a.article_title, effective_text a)) =
        w9doc2.articles.map (fun a => (a.article_title, effective_text a))) ∧
    (∀ c ∈ w9chunks, ∃ a ∈ w9doc.articles, ∃ j : Nat,
      c.id = (fun s => s)
        (law_id_str w9doc ++ '_' :: a.article_title ++ '_' :: natToChars j) ∧
      c.chunk_index = j) ∧
    Option.map (List.map Chunk.id) (process_document (fun s => s) 10 2 20 w9doc) =
      Option.map (List.map Chunk.id) (process_document (fun s => s) 10 2 20 w9doc2) :=
  ⟨⟨by decide, by decide, by decide⟩,
    claim_C9_idempotent_ids (fun s => s) 10 2 20 w9doc w9doc2 w9chunks
      (by decide) (by decide) (by decide)⟩

/-! ## Symbolic evaluation of the 2500-character ingestion (claim C5) -/

theorem trimLeft_eq_self_of_clean {l : List Char}
    (h : ∀ x ∈ l, isSpaceChar x = false) : trimLeft l = l := by
  cases l with
  | nil => rfl
  | cons a as =>
    rw [trimLeft, List.dropWhile_cons, if_neg]
    rw [h a (List.mem_cons_self _ _)]
    exact Bool.false_ne_true

theorem pyStrip_eq_self_of_clean {l : List Char}
    (h : ∀ x ∈ l, isSpaceChar x = false) : pyStrip l = l := by
  have h1 : trimLeft l = l := trimLeft_eq_self_of_clean h
  have h2 : trimLeft l.reverse = l.reverse :=
    trimLeft_eq_self_of_clean (fun x hx => h x (List.mem_reverse.mp hx))
  rw [pyStrip, h1, trimRight]
  show (l.reverse.dropWhile isSpaceChar).reverse = l
  rw [show l.reverse.dropWhile isSpaceChar = l.reverse from h2, List.reverse_reverse]

theorem slice_clean {t : List Char} (h : ∀ x ∈ t, isSpaceChar x = false)
    (s e : Nat) : ∀ x ∈ slice t s e, isSpaceChar x = false := by
  intro x hx
  rw [slice] at hx
  exact h x (((List.take_sublist _ _).subset.trans (List.drop_sublist _ _).subset) hx)

theorem slice_ne_nil {t : List Char} {s e : Nat} (hs : s < t.length) (hse : s < e) :
    slice t s e ≠ [] := by
  intro hcon
  have hlen := congrArg List.length hcon
  rw [slice, List.length_take, List.length_drop] at hlen
  simp only [List.length_nil] at hlen
  omega

/-- One non-final iteration of the loop on whitespace-free text: consume the
raw window `[s, s + max_chars)` and restart at `s + max_chars - overlap`. -/
theorem splitLoop_clean_step {maxC ov : Nat} {t : List Char}
    (hclean : ∀ x ∈ t, isSpaceChar x = false) (hmax : 0 < maxC) (hov : 0 < ov)
    (n s : Nat) (acc : List (List Char)) (he : s + maxC < t.length) :
    splitLoop maxC ov t (n + 1) s acc =
      splitLoop maxC ov t n (s + maxC - ov) (acc ++ [slice t s (s + maxC)]) := by
  have hs : s < t.length := by omega
  have hloopEnd : loopEnd maxC t s = s + maxC := by
    simp only [loopEnd]
    rw [min_eq_left (le_of_lt he), if_pos he, adjustEnd_clean hclean]
  have hchunk : loopChunk maxC t s = slice t s (s + maxC) := by
    rw [loopChunk, hloopEnd]
    exact pyStrip_eq_self_of_clean (slice_clean hclean s (s + maxC))
  have hne : slice t s (s + maxC) ≠ [] := slice_ne_nil hs (by omega)
  have hnext : nextStart ov (s + maxC) = s + maxC - ov := by
    rw [nextStart, if_neg]
    omega
  rw [splitLoop_succ, if_pos hs, hloopEnd, hchunk, hnext, if_neg hne,
    if_neg (by omega : ¬ t.length ≤ s + maxC)]

/-- The final iteration of the loop on whitespace-free text: consume the rest
of the text and stop. -/
theorem splitLoop_clean_last {maxC ov : Nat} {t : List Char}
    (hclean : ∀ x ∈ t, isSpaceChar x = false) (n s : Nat) (acc : List (List Char))
    (hs : s < t.length) (he : t.length ≤ s + maxC) :
    splitLoop maxC ov t (n + 1) s acc = some (acc ++ [slice t s t.length]) := by
  have hloopEnd : loopEnd maxC t s = t.length := by
    simp only [loopEnd]
    rw [min_eq_right he, if_neg (lt_irrefl _)]
  have hchunk : loopChunk maxC t s = slice t s t.length := by
    rw [loopChunk, hloopEnd]
    exact pyStrip_eq_self_of_clean (slice_clean hclean s t.length)
  have hne : slice t s t.length ≠ [] := slice_ne_nil hs hs
  rw [splitLoop_succ, if_pos hs, hloopEnd, hchunk, if_pos (le_refl _), if_neg hne]

theorem replicate2500_clean : ∀ x ∈ List.replicate 2500 'a', isSpaceChar x = false := by
  intro x hx
  rw [List.eq_of_mem_replicate hx]
  rfl

/-- The 2500-character text splits into exactly three windows
`[0,1000)`, `[800,1800)`, `[1600,2500)`. -/
theorem split2500_eq :
    split_text 1000 200 50 (List.replicate 2500 'a') =
      some [List.replicate 1000 'a', List.replicate 1000 'a', List.replicate 900 'a'] := by
  have hlen : (List.replicate 2500 'a').length = 2500 := by simp
  have hs1 : slice (List.replicate 2500 'a') 0 (0 + 1000) = List.replicate 1000 'a' := by
    simp [slice, List.drop_replicate, List.take_replicate]
  have hs2 : slice (List.replicate 2500 'a') 800 (800 + 1000) = List.replicate 1000 'a' := by
    simp [slice, List.drop_replicate, List.take_replicate]
  have hs3 : slice (List.replicate 2500 'a') 1600 (List.replicate 2500 'a').length =
      List.replicate 900 'a' := by
    rw [hlen]
    simp [slice, List.drop_replicate, List.take_replicate]
  rw [split_text, if_neg (by rw [hlen]; omega)]
  rw [show (50 : Nat) = 49 + 1 from rfl,
    splitLoop_clean_step replicate2500_clean (by omega) (by omega) 49 0 []
      (by rw [hlen]; omega)]
  rw [hs1, show (0 + 1000 - 200 : Nat) = 800 from rfl]
  rw [show (49 : Nat) = 48 + 1 from rfl,
    splitLoop_clean_step replicate2500_clean (by omega) (by omega) 48 800 _
      (by rw [hlen]; omega)]
  rw [hs2, show (800 + 1000 - 200 : Nat) = 1600 from rfl]
  rw [show (48 : Nat) = 47 + 1 from rfl,
    splitLoop_clean_last replicate2500_clean 47 1600 _ (by rw [hlen]; omega)
      (by rw [hlen]; omega)]
  rw [hs3]
  rfl

/-- The effective text of `art2500` is its 2500-character content. -/
theorem eff2500 : effective_text art2500 = List.replicate 2500 'a' := by
  rw [effective_text, if_neg]
  · show pyStrip ((raw_content art2500).getD []) = _
    rw [show raw_content art2500 = some (List.replicate 2500 'a') from rfl]
    show pyStrip (List.replicate 2500 'a') = _
    exact pyStrip_eq_self_of_clean replicate2500_clean
  · rintro ⟨h1, _⟩
    exact absurd h1 (by decide)

/-- The full ingestion of `doc2500` in closed form: three chunks over the
three windows. -/
theorem ingest2500_eq :
    ingest2500 = some (mk_chunks (fun s => s) (law_id_str doc2500) doc2500.categories
      art2500 3 0
      [List.replicate 1000 'a', List.replicate 1000 'a', List.replicate 900 'a']) := by
  rw [ingest2500, process_document]
  show process_articles _ [art2500] = _
  rw [process_articles, process_article, if_neg (by rw [eff2500]; simp), eff2500,
    split2500_eq]
  rw [show process_articles (process_article (fun s => s) 1000 200 50
    (law_id_str doc2500) doc2500.categories) [] = some [] from rfl]
  simp

/-! ## Claim C5 -/

/-- **C5, counterexample.** Ingesting one Law with one Article of 2500
characters at `max_chars = 1000`, `overlap = 200` produces exactly **3**
chunks (starts 0, 800, 1600), not the claimed 4. -/
theorem claim_C5_counterexample :
    Option.map List.length ingest2500 = some 3 ∧
    Option.map List.length ingest2500 ≠ some 4 := by
  have h3 : Option.map List.length ingest2500 = some 3 := by
    rw [ingest2500_eq]
    rfl
  exact ⟨h3, by rw [h3]; decide⟩

/-- **C5, amended.** The 2500-character ingestion yields exactly 3 chunks, all
sharing the one group key `"L1_5"` and carrying the law's categories (so a
matching category filter retains them); grouping any 3 retrieved candidates
bearing that key — whatever rerank scores are attached and truncating the
reranked list to `search_k = 10` — yields, after the final `top_k = 1` slice,
exactly 1 GroupedResult whose `group_count` is 3. -/
theorem claim_C5_amended (g : Cand → ℚ) (cands : List Cand)
    (hc : cands.map eff_group = [key2500, key2500, key2500]) :
    Option.map (List.map Chunk.article_group_id) ingest2500 =
      some [key2500, key2500, key2500] ∧
    Option.map List.length ingest2500 = some 3 ∧
    Option.map (List.map Chunk.categories) ingest2500 =
      some [doc2500.categories, doc2500.categories, doc2500.categories] ∧
    ((group_results (rerank g cands 10)).take 1).length = 1 ∧
    ∀ gr ∈ (group_results (rerank g cands 10)).take 1, gr.group_count = 3 := by
  have hclen : cands.length = 3 := by
    have hlen := congrArg List.length hc
    simpa using hlen
  have hall : ∀ c ∈ cands, eff_group c = key2500 := by
    intro c hcmem
    have hmem : eff_group c ∈ cands.map eff_group := List.mem_map_of_mem eff_group hcmem
    rw [hc] at hmem
    rcases List.mem_cons.mp hmem with hmem | hmem
    · exact hmem
    · rcases List.mem_cons.mp hmem with hmem | hmem
      · exact hmem
      · exact List.mem_singleton.mp hmem
  have hperm : List.Perm (rerank g cands 10) (attach_scores g cands) :=
    rerank_perm g cands 10 (by omega)
  have hrlen : (rerank g cands 10).length = 3 := by
    rw [hperm.length_eq]
    simpa [attach_scores] using hclen
  have hrall : ∀ c ∈ rerank g cands 10, eff_group c = key2500 := by
    intro c hcmem
    have hmem : c ∈ attach_scores g cands := hperm.mem_iff.mp hcmem
    obtain ⟨c0, hc0, rfl⟩ := List.mem_map.mp hmem
    rw [eff_group_attach]
    exact hall c0 hc0
  have hrne : rerank g cands 10 ≠ [] := by
    intro hcon
    rw [hcon] at hrlen
    simp at hrlen
  obtain ⟨hglen, hgcount⟩ := group_results_const_key hrne hrall
  refine ⟨by rw [ingest2500_eq]; rfl, by rw [ingest2500_eq]; rfl,
    by rw [ingest2500_eq]; rfl, ?_, ?_⟩
  · rw [List.length_take, hglen]
    exact min_self 1
  · intro gr hgr
    have hgr' : gr ∈ group_results (rerank g cands 10) := List.take_subset 1 _ hgr
    rw [hgcount gr hgr', hrlen]

/-- Witness for the amended C5 at three concrete candidates with zero scores. -/
theorem claim_C5_amended_witness :
    w5cands.map eff_group = [key2500, key2500, key2500] ∧
    (Option.map (List.map Chunk.article_group_id) ingest2500 =
        some [key2500, key2500, key2500] ∧
      Option.map List.length ingest2500 = some 3 ∧
      Option.map (List.map Chunk.categories) ingest2500 =
        some [doc2500.categories, doc2500.categories, doc2500.categories] ∧
      ((group_results (rerank (fun _ => 0) w5cands 10)).take 1).length = 1 ∧
      ∀ gr ∈ (group_results (rerank (fun _ => 0) w5cands 10)).take 1,
        gr.group_count = 3) :=
  ⟨by decide, claim_C5_amended (fun _ => 0) w5cands (by decide)⟩

end RagModels
